import Mathlib

/-!
Verification of the ir-codex core: chapter segmentation (`extractor.py`),
text cleaning (`cleaner.py`), slug derivation (`utils.py`) and RAKE-style
keyword scoring (`keywords.py`).  Strings are modelled as lists of
characters (`Str`); Python string operations used by the source are
embedded as executable functions over `Str`.
-/

namespace IRCodex

/-- Strings are modelled as lists of characters. -/
abbrev Str := List Char

/-- Python whitespace (`\s`, `str.strip()`), restricted to the ASCII
whitespace characters that occur in this pipeline. -/
def isWS (c : Char) : Bool :=
  c = ' ' || c = '\t' || c = '\n' || c = '\r' || c = '\x0b' || c = '\x0c'

/-- The apostrophe character (kept inside tokens by the tokenizer). -/
def apoC : Char := Char.ofNat 39

/-- `lhs` is an initial segment of the second argument (Python `startswith`). -/
def startsWithL : Str → Str → Bool
  | [], _ => true
  | _ :: _, [] => false
  | p :: ps, c :: cs => p = c && startsWithL ps cs

/-- Substring test (Python `in` on strings). -/
def containsStr (hay needle : Str) : Bool :=
  startsWithL needle hay ||
    match hay with
    | [] => false
    | _ :: t => containsStr t needle

/-- Remove leading characters satisfying `isWS` (left part of `str.strip()`). -/
def dropLeadWS (l : Str) : Str := l.dropWhile isWS

/-- Python `str.strip()`: drop ASCII whitespace from both ends. -/
def stripL (l : Str) : Str := ((l.dropWhile isWS).reverse.dropWhile isWS).reverse

/-- Python `str.lower()` (ASCII). -/
def lowerL (l : Str) : Str := l.map Char.toLower

/-- Python `int(s)` for a string of decimal digits. -/
def natOfDigits (l : Str) : Nat :=
  l.foldl (fun a c => a * 10 + (c.toNat - 48)) 0

/-- Python `str.isdigit()` (ASCII model): non-empty and all digits. -/
def pyIsDigit (l : Str) : Bool := !l.isEmpty && l.all Char.isDigit

/-- Join a list of strings with a separator (Python `sep.join`). -/
def joinWith (sep : Str) : List Str → Str
  | [] => []
  | [p] => p
  | p :: q :: rest => p ++ sep ++ joinWith sep (q :: rest)

/-! ## cleaner.py -/

/-- `text.replace("\r\n", "\n").replace("\r", "\n")`: every CRLF pair and
every remaining CR becomes a single LF. -/
def fixCR : Str → Str
  | [] => []
  | c :: rest =>
    if c = '\r' then
      match rest with
      | '\n' :: rest2 => '\n' :: fixCR rest2
      | [] => ['\n']
      | c2 :: rest2 => '\n' :: fixCR (c2 :: rest2)
    else c :: fixCR rest

/-- `text.split("\n")`: split on every newline, keeping empty pieces. -/
def splitNL : Str → List Str
  | [] => [[]]
  | c :: rest =>
    if c = '\n' then [] :: splitNL rest
    else
      match splitNL rest with
      | [] => [[c]]
      | l :: ls => (c :: l) :: ls

/-- `_WHITESPACE_RE.sub(" ", line)`: each maximal whitespace run becomes one
space. -/
def collapseWSAux : Bool → Str → Str
  | _, [] => []
  | inRun, c :: cs =>
    if isWS c then
      if inRun then collapseWSAux true cs else ' ' :: collapseWSAux true cs
    else c :: collapseWSAux false cs

/-- See `collapseWSAux`: the flag starts outside a whitespace run. -/
def collapseWS (l : Str) : Str := collapseWSAux false l

/-- `normalize_line` from cleaner.py: replace NBSP by a space, delete BOM
characters, strip, collapse whitespace runs. -/
def normalize_line (l : Str) : Str :=
  collapseWS (stripL ((l.map fun c => if c = '\u00A0' then ' ' else c).filter
    fun c => c ≠ '\uFEFF'))

/-- The blank-collapsing loop of `clean_text` (building `cleaned_lines`):
the flag records whether the accumulated output is non-empty with a
non-blank last element. -/
def dedupBlanks : Bool → List Str → List Str
  | _, [] => []
  | lastContent, l :: ls =>
    if l = [] then
      if lastContent then [] :: dedupBlanks false ls else dedupBlanks false ls
    else l :: dedupBlanks true ls

/-- `line[:1].islower()`: the first character is a lowercase letter. -/
def headLower : Str → Bool
  | [] => false
  | c :: _ => c.isLower

/-- `s.endswith("-")`. -/
def endsDash (l : Str) : Bool := l.getLast? = some '-'

/-- The `parts` loop of `_merge_buffer`; the accumulator holds the parts in
reverse order. -/
def buildParts : List Str → List Str → List Str
  | ps, [] => ps.reverse
  | ps, p :: rest =>
    if p = [] then buildParts ps rest
    else
      match ps with
      | [] => buildParts [p] rest
      | q :: qs =>
        if endsDash q then buildParts ((q.dropLast ++ p) :: qs) rest
        else buildParts (p :: q :: qs) rest

/-- `_merge_buffer` from cleaner.py. -/
def merge_buffer (lines : List Str) : Str :=
  joinWith [' '] (buildParts [] lines)

/-- The paragraph-grouping loop of `clean_text`; the buffer holds lines in
reverse order (`buf.reverse` is Python's `buffer`). -/
def buildParas : List Str → List Str → List Str
  | buf, [] =>
    match buf with
    | [] => []
    | _ :: _ => [merge_buffer buf.reverse]
  | buf, l :: ls =>
    if l = [] then
      match buf with
      | [] => buildParas [] ls
      | _ :: _ => merge_buffer buf.reverse :: buildParas [] ls
    else
      match buf with
      | [] => buildParas [l] ls
      | b :: bs =>
        if endsDash b && headLower l then buildParas ((b.dropLast ++ l) :: bs) ls
        else buildParas (l :: b :: bs) ls

/-- `clean_text` from cleaner.py. -/
def clean_text (text : Str) : Str :=
  stripL (joinWith ['\n', '\n']
    (buildParas [] (dedupBlanks false ((splitNL (fixCR text)).map normalize_line))))

/-! ## utils.py -/

/-- A character kept by `_SLUG_CLEAN_RE` (the class `[a-z0-9-]`). -/
def slugChar (c : Char) : Bool := c.isLower || c.isDigit || c = '-'

/-- A character of the class `[\s_/]` collapsed to a hyphen by `slugify`. -/
def slugSep (c : Char) : Bool := isWS c || c = '_' || c = '/'

/-- `re.sub(r"[\s_/]+", "-", value)`: each maximal separator run becomes one
hyphen; the flag records being inside a run. -/
def collapseSepAux : Bool → Str → Str
  | _, [] => []
  | inRun, c :: cs =>
    if slugSep c then
      if inRun then collapseSepAux true cs else '-' :: collapseSepAux true cs
    else c :: collapseSepAux false cs

/-- `slugify` from utils.py. -/
def slugify (value : Str) : Str :=
  let v1 := stripL (lowerL value)
  let v2 := v1.filter fun c => c ≠ apoC && c ≠ '\"'
  let v3 := collapseSepAux false v2
  let v4 := v3.filter slugChar
  let v5 := ((v4.dropWhile (· = '-')).reverse.dropWhile (· = '-')).reverse
  if v5.isEmpty then "capitulo".data else v5

/-- Structured representation of a chapter (`ChapterRecord` in utils.py,
restricted to the fields the segmenter fills in). -/
structure ChapterRecord where
  number : Nat
  title : Str
  slug : Str
  english_text : Str
deriving DecidableEq, Repr

/-! ## extractor.py -/

/-- Python `str.split()`: split on whitespace runs, dropping empty pieces.
The accumulator holds the current word reversed while inside a word. -/
def pySplitAux : Option Str → Str → List Str
  | none, [] => []
  | some w, [] => [w.reverse]
  | none, c :: cs =>
    if isWS c then pySplitAux none cs else pySplitAux (some [c]) cs
  | some w, c :: cs =>
    if isWS c then w.reverse :: pySplitAux none cs
    else pySplitAux (some (c :: w)) cs

/-- Python `str.split()` with no argument. -/
def pySplit (l : Str) : List Str := pySplitAux none l

/-- A character of the `_TITLE_PATTERN` body class
`[A-Za-z0-9 ,\-\'\(\)/:&]`. -/
def titleBodyChar (c : Char) : Bool :=
  c.isAlpha || c.isDigit || c = ' ' || c = ',' || c = '-' || c = apoC ||
    c = '(' || c = ')' || c = '/' || c = ':' || c = '&'

/-- `_TITLE_PATTERN.match`: an uppercase letter followed by one or more
characters of the limited class (the regex is anchored on both sides). -/
def titlePatternMatch : Str → Bool
  | [] => false
  | c :: rest => c.isUpper && !rest.isEmpty && rest.all titleBodyChar

/-- The first character is an uppercase letter (`word[0].isupper()`). -/
def headUpper : Str → Bool
  | [] => false
  | c :: _ => c.isUpper

/-- `_looks_like_title` from extractor.py. -/
def looks_like_title (line : Str) : Bool :=
  if line.isEmpty then false
  else if line.length > 80 then false
  else
    let clean := stripL line
    if startsWithL "www".data (lowerL clean) then false
    else
      let words := pySplit clean
      if words.isEmpty then false
      else
        let uppercaseLike := words.all fun w =>
          if w.any Char.isAlpha then headUpper w else true
        titlePatternMatch clean || uppercaseLike

/-- `re.fullmatch(r"Page \d+", line, flags=re.IGNORECASE)`: case-insensitive
literal `Page ` followed by one or more digits, covering the whole line. -/
def isPageNumberLine (l : Str) : Bool :=
  let t := lowerL l
  startsWithL "page ".data t && !(t.drop 5).isEmpty && (t.drop 5).all Char.isDigit

/-- `line.strip().lower().startswith("international relations theory")`. -/
def isRunningHeader (l : Str) : Bool :=
  startsWithL "international relations theory".data (lowerL (stripL l))

/-- `_filter_noise` from extractor.py. -/
def filter_noise (line : Str) : Option Str :=
  if line.isEmpty then some []
  else if isPageNumberLine line then none
  else if isRunningHeader line then none
  else some line

/-- The per-page preprocessing of `extract_chapters` (lines 27-29): strip
each line, apply `_filter_noise`, keep the lines that are not `None`. -/
def preprocessLines (lines : List Str) : List Str :=
  ((lines.map stripL).map filter_noise).filterMap id

/-- The boundary test of the segmentation scan (already-stripped inputs):
current line purely numeric, next line title-like, previous line blank. -/
def boundaryCond (l nx prev : Str) : Bool :=
  pyIsDigit l && looks_like_title nx && prev.isEmpty

/-- `_build_record` from extractor.py. -/
def build_record (number : Nat) (title : Str) (lines : List Str) : ChapterRecord :=
  let rawBody := stripL (joinWith ['\n'] lines)
  let body := clean_text rawBody
  let finalText := if body.isEmpty then title else title ++ '\n' :: '\n' :: body
  { number := number
    title := title
    slug := slugify (Nat.toDigits 10 number ++ '-' :: title)
    english_text := stripL finalText }

/-- Build the record of the open chapter, if one is open (`current_number`
and `current_title` are modelled as one optional pair, as they are always
set together). -/
def flushChapter (cur : Option (Nat × Str)) (lines : List Str) : List ChapterRecord :=
  match cur with
  | none => []
  | some (n, t) => [build_record n t lines]

/-- The index-based scanning loop of `extract_chapters` (lines 39-61):
`prev` is the line before the current one (the empty string at the start of
the stream), `cur` the open chapter header, `curLines` its accumulated body
lines.  On a boundary the current line and the following title line are both
consumed. -/
def segmentAux : List Str → Str → Option (Nat × Str) → List Str → List ChapterRecord
  | [], _, cur, curLines => flushChapter cur curLines
  | [line], prev, cur, curLines =>
    let l := stripL line
    if boundaryCond l [] (stripL prev) then
      flushChapter cur curLines ++ flushChapter (some (natOfDigits l, [])) []
    else flushChapter cur (curLines ++ [line])
  | line :: nraw :: rest, prev, cur, curLines =>
    let l := stripL line
    let nx := stripL nraw
    if boundaryCond l nx (stripL prev) then
      flushChapter cur curLines ++
        segmentAux rest nraw (some (natOfDigits l, nx)) []
    else segmentAux (nraw :: rest) line cur (curLines ++ [line])

/-- The segmentation scan over the assembled line stream. -/
def segmentLines (allLines : List Str) : List ChapterRecord :=
  segmentAux allLines [] none []

/-- `extract_chapters` on an assembled line stream: the `RuntimeError` on an
empty result is modelled as `Except.error` (the PDF reading itself is the
external reader collaborator). -/
def extract_chapters (allLines : List Str) : Except String (List ChapterRecord) :=
  let chapters := segmentLines allLines
  if chapters.isEmpty then
    Except.error "No chapters were detected in the PDF. Check extraction heuristics."
  else Except.ok chapters

/-- The scan meets at least one boundary: the condition of the scan holds at
some position it evaluates (before the first hit, the scan window is exactly
the previous, current and next line). -/
def anyBoundary : Str → List Str → Bool
  | _, [] => false
  | prev, line :: rest =>
    if boundaryCond (stripL line) (stripL (rest.headD [])) (stripL prev) then true
    else anyBoundary line rest

/-! ## keywords.py -/

/-- Tokens and candidate phrases of the keyword scorer. -/
abbrev Token := Str

/-- A candidate phrase: a run of consecutive non-stopword tokens. -/
abbrev Phrase := List Token

/-- `_STOPWORDS` from keywords.py. -/
def stopwords : List Token :=
  (["a", "about", "above", "after", "again", "against", "all", "am", "an",
    "and", "any", "are", "aren't", "as", "at", "be", "because", "been",
    "before", "being", "below", "between", "both", "but", "by", "can",
    "cannot", "could", "couldn't", "did", "didn't", "do", "does", "doesn't",
    "doing", "don't", "down", "during", "each", "few", "for", "from",
    "further", "had", "hadn't", "has", "hasn't", "have", "haven't", "having",
    "he", "he'd", "he'll", "he's", "her", "here", "here's", "hers",
    "herself", "him", "himself", "his", "how", "how's", "i", "i'd", "i'll",
    "i'm", "i've", "if", "in", "into", "is", "isn't", "it", "it's", "its",
    "itself", "let's", "me", "more", "most", "mustn't", "my", "myself",
    "no", "nor", "not", "of", "off", "on", "once", "only", "or", "other",
    "ought", "our", "ours", "ourselves", "out", "over", "own", "same",
    "shan't", "she", "she'd", "she'll", "she's", "should", "shouldn't",
    "so", "some", "such", "than", "that", "that's", "the", "their",
    "theirs", "them", "themselves", "then", "there", "there's", "these",
    "they", "they'd", "they'll", "they're", "they've", "this", "those",
    "through", "to", "too", "under", "until", "up", "very", "was", "wasn't",
    "we", "we'd", "we'll", "we're", "we've", "were", "weren't", "what",
    "what's", "when", "when's", "where", "where's", "which", "while",
    "who", "who's", "whom", "why", "why's", "with", "won't", "would",
    "wouldn't", "you", "you'd", "you'll", "you're", "you've", "your",
    "yours", "yourself", "yourselves"] : List String).map String.data

/-- Split into the maximal runs of characters satisfying `keep`; the
accumulator holds the current run reversed.  This models Python
`re.split` on the complementary separator class followed by the removal
of empty pieces. -/
def splitRunsAux (keep : Char → Bool) : Option Str → Str → List Str
  | none, [] => []
  | some w, [] => [w.reverse]
  | none, c :: cs =>
    if keep c then splitRunsAux keep (some [c]) cs
    else splitRunsAux keep none cs
  | some w, c :: cs =>
    if keep c then splitRunsAux keep (some (c :: w)) cs
    else w.reverse :: splitRunsAux keep none cs

/-- See `splitRunsAux`. -/
def splitRuns (keep : Char → Bool) (l : Str) : List Str :=
  splitRunsAux keep none l

/-- A character kept inside a token (`_TOKEN_RE` splits on `[^A-Za-z0-9']+`). -/
def tokenChar (c : Char) : Bool := c.isAlpha || c.isDigit || c = apoC

/-- A sentence separator of `re.split(r"[.!?\n]+", text)`. -/
def sentSep (c : Char) : Bool := c = '.' || c = '!' || c = '?' || c = '\n'

/-- The sentence-like spans of a text.  `re.split` also yields empty pieces
at the borders; those produce no words and hence no phrases, so they are
dropped here. -/
def sentencesOf (text : Str) : List Str := splitRuns (fun c => !sentSep c) text

/-- The filtered, lowercased words of one sentence
(`word.lower() for word in _TOKEN_RE.split(sentence) if word and not
word.isdigit()`). -/
def sentenceWords (s : Str) : List Token :=
  (splitRuns tokenChar s).filterMap fun w =>
    if w.isEmpty then none
    else if pyIsDigit w then none
    else some (lowerL w)

/-- The phrase-buffer walk over the words of one sentence: a stopword
flushes the buffer, any other word extends it, the sentence end flushes
what is left. -/
def phraseScan : Phrase → List Token → List Phrase
  | buf, [] => if buf.isEmpty then [] else [buf]
  | buf, w :: ws =>
    if stopwords.contains w then
      if buf.isEmpty then phraseScan [] ws else buf :: phraseScan [] ws
    else phraseScan (buf ++ [w]) ws

/-- `_extract_candidate_phrases` from keywords.py. -/
def extract_candidate_phrases (text : Str) : List Phrase :=
  ((sentencesOf text).map fun s => phraseScan [] (sentenceWords s)).flatten

/-- Add `k` to the count of `t` (a `Counter` update). -/
def bump (f : Token → Nat) (t : Token) (k : Nat) : Token → Nat :=
  fun u => if u = t then f u + k else f u

/-- The `freq` counter of `_score_phrases`: one per occurrence position. -/
def freqOf (phrases : List Phrase) : Token → Nat :=
  phrases.foldl (fun f p => p.foldl (fun g w => bump g w 1) f) fun _ => 0

/-- The `degree` counter of `_score_phrases`: the phrase length once per
occurrence position, plus `length - 1` once per distinct token of each
phrase (the iteration order of Python's `set(phrase)` does not matter, so
it is modelled by `List.dedup`). -/
def degreeOf (phrases : List Phrase) : Token → Nat :=
  phrases.foldl
    (fun d p =>
      (p.dedup).foldl (fun e w => bump e w (p.length - 1))
        (p.foldl (fun e w => bump e w p.length) d))
    fun _ => 0

/-- `word_scores`: degree over frequency, as an exact rational. -/
def wordScore (phrases : List Phrase) (t : Token) : ℚ :=
  (degreeOf phrases t : ℚ) / (freqOf phrases t : ℚ)

/-- A phrase's score: the sum of its member tokens' word scores. -/
def phraseScore (phrases : List Phrase) (p : Phrase) : ℚ :=
  (p.map (wordScore phrases)).sum

/-- The keys of a Python dict or `Counter` built by repeated insertion:
each distinct element once, in first-encounter order. -/
def firstSeen {α} [DecidableEq α] : List α → List α
  | [] => []
  | x :: xs => x :: (firstSeen xs).filter (· ≠ x)

/-- `scored.items()`: each distinct candidate phrase with its score, in
first-encounter order (dict insertion order). -/
def scoredItems (phrases : List Phrase) : List (Phrase × ℚ) :=
  (firstSeen phrases).map fun p => (p, phraseScore phrases p)

/-- Stable insertion of `x` into a descending list: `x` goes before the
first element of strictly smaller key, hence after every earlier element
of equal key. -/
def insertDescBy {α β} [LinearOrder β] (key : α → β) (x : α) : List α → List α
  | [] => [x]
  | y :: ys => if key y < key x then x :: y :: ys else y :: insertDescBy key x ys

/-- Stable descending sort by key (the behaviour of Python's stable
`sorted(..., reverse=True)`). -/
def sortDescBy {α β} [LinearOrder β] (key : α → β) (l : List α) : List α :=
  l.foldl (fun acc x => insertDescBy key x acc) []

/-- `" ".join(phrase)`. -/
def joinSpace (p : Phrase) : Str := joinWith [' '] p

/-- The ranked-selection loop of `extract`: skip a candidate whose joined
string is shorter than 4 characters or already seen, append it otherwise,
and stop as soon as the output has reached `maxK` entries (`k` is the
number already appended). -/
def selectKeywords (maxK : Nat) : List (Phrase × ℚ) → List Str → Nat → List Str
  | [], _, _ => []
  | (p, _) :: rest, seen, k =>
    let cand := joinSpace p
    if cand.length < 4 then selectKeywords maxK rest seen k
    else if seen.contains cand then selectKeywords maxK rest seen k
    else cand :: (if maxK ≤ k + 1 then [] else selectKeywords maxK rest (cand :: seen) (k + 1))

/-- The ranked path of `extract`: selection over the stably sorted scored
items. -/
def rankedKeywords (maxK : Nat) (phrases : List Phrase) : List Str :=
  selectKeywords maxK (sortDescBy (fun pr => pr.2) (scoredItems phrases)) [] 0

/-- `Counter(flat).most_common(maxK)`, keeping only the words: counts
descending, ties in first-encounter order. -/
def mostCommon (maxK : Nat) (flat : List Token) : List Token :=
  (sortDescBy (fun t => flat.count t) (firstSeen flat)).take maxK

/-- `KeywordGenerator.extract` with the configured maximum count. -/
def extract (maxK : Nat) (text : Str) : List Str :=
  let phrases := extract_candidate_phrases text
  let ranked := rankedKeywords maxK phrases
  if ranked.isEmpty then mostCommon maxK phrases.flatten else ranked

/-- The constructor default `max_keywords: int = 8`. -/
def defaultMaxKeywords : Nat := 8

end IRCodex

namespace IRCodex

/-! ## Helper lemmas -/

theorem head_dropWhile_not {α} (p : α → Bool) :
    ∀ (l : List α) (c : α), (l.dropWhile p).head? = some c → p c = false := by
  intro l c h
  induction l with
  | nil => simp [List.dropWhile] at h
  | cons a r ih =>
    by_cases hp : p a = true
    · rw [List.dropWhile_cons_of_pos hp] at h; exact ih h
    · rw [List.dropWhile_cons_of_neg hp] at h
      simp at h
      rw [← h]
      exact Bool.not_eq_true _ |>.mp hp

theorem mem_dropWhile {α} (p : α → Bool) :
    ∀ (l : List α), ∀ c ∈ l.dropWhile p, c ∈ l := by
  intro l c h
  exact (List.dropWhile_sublist p |>.subset) h

theorem getLast_dropWhile_of_ne_nil {α} (p : α → Bool) :
    ∀ (l : List α), l.dropWhile p ≠ [] → (l.dropWhile p).getLast? = l.getLast? := by
  intro l h
  induction l with
  | nil => simp [List.dropWhile] at h
  | cons a r ih =>
    by_cases hp : p a = true
    · rw [List.dropWhile_cons_of_pos hp] at h ⊢
      rcases List.eq_nil_or_concat r with hr | ⟨r', b, rfl⟩
      · subst hr; simp [List.dropWhile] at h
      · rw [ih h]
        rw [show a :: (r'.concat b) = (a :: r') ++ [b] by simp [List.concat_eq_append],
          List.getLast?_concat, List.concat_eq_append, List.getLast?_concat]
    · rw [List.dropWhile_cons_of_neg hp]

end IRCodex

namespace IRCodex

theorem trim_dash_props (v4 v5 : Str) (h4 : ∀ c ∈ v4, slugChar c = true)
    (h5 : v5 = ((v4.dropWhile (· = '-')).reverse.dropWhile (· = '-')).reverse) :
    (if v5.isEmpty then "capitulo".data else v5) ≠ [] ∧
    (∀ c ∈ (if v5.isEmpty then "capitulo".data else v5),
      c.isLower = true ∨ c.isDigit = true ∨ c = '-') ∧
    (if v5.isEmpty then "capitulo".data else v5).head? ≠ some '-' ∧
    (if v5.isEmpty then "capitulo".data else v5).getLast? ≠ some '-' := by
  by_cases he : v5.isEmpty
  · simp only [he, if_pos]
    refine ⟨by decide, ?_, by decide, by decide⟩
    intro c hc
    fin_cases hc <;> simp
  · simp only [he, if_neg, Bool.false_eq_true, not_false_iff]
    have hne : v5 ≠ [] := by
      intro h; rw [h] at he; exact he rfl
    refine ⟨hne, ?_, ?_, ?_⟩
    · intro c hc
      have hc4 : c ∈ v4 := by
        rw [h5] at hc
        rw [List.mem_reverse] at hc
        have := mem_dropWhile _ _ _ hc
        rw [List.mem_reverse] at this
        exact mem_dropWhile _ _ _ this
      have := h4 c hc4
      have h2 := this
      simp only [slugChar, Bool.or_eq_true, decide_eq_true_iff] at h2
      tauto
    · -- head of v5 is the head of dropWhile on v4, which fails (· = '-')
      intro hh
      have hne' : (v4.dropWhile (· = '-')).reverse.dropWhile (· = '-') ≠ [] := by
        intro h; rw [h5, h] at hne; exact hne rfl
      rw [h5, List.head?_reverse] at hh
      rw [getLast_dropWhile_of_ne_nil _ _ hne', List.getLast?_reverse] at hh
      have := head_dropWhile_not (· = '-') v4 '-' hh
      simp at this
    · intro hh
      rw [h5, List.getLast?_reverse] at hh
      have := head_dropWhile_not (· = '-') _ '-' hh
      simp at this

end IRCodex

namespace IRCodex

/-- C8: for every input string, `slugify` returns a non-empty string made of
lowercase letters, digits and hyphens only, with no leading or trailing
hyphen; the empty input yields the fixed placeholder `"capitulo"`. -/
theorem c8_slugify_props (value : Str) :
    slugify value ≠ [] ∧
    (∀ c ∈ slugify value, c.isLower = true ∨ c.isDigit = true ∨ c = '-') ∧
    (slugify value).head? ≠ some '-' ∧
    (slugify value).getLast? ≠ some '-' ∧
    slugify [] = "capitulo".data := by
  have h4 : ∀ c ∈ (collapseSepAux false
      ((stripL (lowerL value)).filter fun c => c ≠ apoC && c ≠ '\"')).filter slugChar,
      slugChar c = true := by
    intro c hc
    exact (List.mem_filter.mp hc).2
  obtain ⟨h1, h2, h3, h4'⟩ := trim_dash_props _ _ h4 rfl
  exact ⟨h1, h2, h3, h4', by decide⟩

/-- Witness for `c8_slugify_props` at the spec's example input. -/
theorem c8_slugify_props_witness :
    slugify "3 - The Realist Tradition!".data ≠ [] ∧
    ('3' ∈ slugify "3 - The Realist Tradition!".data →
      ('3'.isLower = true ∨ '3'.isDigit = true ∨ '3' = '-')) :=
  ⟨(c8_slugify_props "3 - The Realist Tradition!".data).1,
   fun h => (c8_slugify_props "3 - The Realist Tradition!".data).2.1 '3' h⟩

end IRCodex

namespace IRCodex

theorem filter_noise_eq (l : Str) :
    filter_noise l =
      if (isPageNumberLine l || isRunningHeader l) = true then none else some l := by
  by_cases he : l.isEmpty
  · have hnil : l = [] := by
      cases l with
      | nil => rfl
      | cons a r => simp [List.isEmpty] at he
    subst hnil
    decide
  · by_cases hp : isPageNumberLine l <;> by_cases hh : isRunningHeader l <;>
      simp [filter_noise, he, hp, hh]

theorem filterMap_noise (ms : List Str) :
    (ms.map filter_noise).filterMap id =
      ms.filter fun l => !(isPageNumberLine l || isRunningHeader l) := by
  induction ms with
  | nil => rfl
  | cons m rest ih =>
    simp only [List.map_cons, List.filterMap_cons, List.filter_cons]
    rw [filter_noise_eq m]
    by_cases h : (isPageNumberLine m || isRunningHeader m) = true
    · simp [h, ih]
    · simp [h, ih]

/-- C1 (counterexample): a page-number-only line is not replaced by an
empty-string marker at its position: preprocessing `["a", "Page 3", "b"]`
yields `["a", "b"]`, not the marker-preserving `["a", "", "b"]`. -/
theorem c1_marker_counterexample :
    preprocessLines (["a", "Page 3", "b"].map String.data) =
      ["a", "b"].map String.data ∧
    ((["a", "Page 3", "b"].map String.data).map stripL).map
        (fun l => if (isPageNumberLine l || isRunningHeader l) = true then [] else l) =
      ["a", "", "b"].map String.data ∧
    preprocessLines (["a", "Page 3", "b"].map String.data) ≠
      ["a", "", "b"].map String.data := by
  refine ⟨by decide, by decide, by decide⟩

/-- C1 (amended): per-line preprocessing strips each line and removes
page-number-only lines and running-header lines from the stream entirely;
only lines that were already empty remain as empty-string markers, so a
noise line does not preserve blank-line adjacency at its position. -/
theorem c1_noise_lines_removed (lines : List Str) :
    preprocessLines lines =
      (lines.map stripL).filter fun l => !(isPageNumberLine l || isRunningHeader l) := by
  unfold preprocessLines
  exact filterMap_noise (lines.map stripL)

end IRCodex

namespace IRCodex

/-- The first character is an alphabetic letter. -/
def headAlpha : Str → Bool
  | [] => false
  | c :: _ => c.isAlpha

/-- The title heuristic exactly as the spec words it: non-empty, at most 80
characters, no URL-like prefix, and either the restrictive pattern matches
or every word whose leading character is alphabetic starts with an
uppercase letter (spec side, for comparison with `_looks_like_title`). -/
def titleHeuristicSpec (line : Str) : Bool :=
  !line.isEmpty && decide (line.length ≤ 80) &&
    !startsWithL "www".data (lowerL (stripL line)) &&
    (titlePatternMatch (stripL line) ||
      (pySplit (stripL line)).all fun w => if headAlpha w then headUpper w else true)

theorem if_bool_imp (b c : Bool) :
    ((if b = true then c else true) = true) ↔ (b = true → c = true) := by
  cases b <;> simp

/-- C3 (counterexample): the code's capitalization test quantifies over the
words containing an alphabetic character and checks their first character,
and it rejects whitespace-only lines having no words at all; both differ
from the spec's wording, e.g. at `"(hello)"` and at `"   "`. -/
theorem c3_title_counterexample :
    looks_like_title "(hello)".data = false ∧
    titleHeuristicSpec "(hello)".data = true ∧
    looks_like_title "   ".data = false ∧
    titleHeuristicSpec "   ".data = true := by
  refine ⟨by decide, by decide, by decide, by decide⟩

/-- C3 (amended): the title heuristic accepts a line iff it is non-empty,
at most 80 characters long, its stripped form does not start with `www`
(case-insensitively), it has at least one whitespace-separated word, and
either the restrictive capitalized-words pattern matches the stripped line
or every word containing an alphabetic character starts with an uppercase
letter. -/
theorem c3_title_heuristic_iff (line : Str) :
    looks_like_title line = true ↔
      (line ≠ [] ∧ line.length ≤ 80 ∧
       startsWithL "www".data (lowerL (stripL line)) = false ∧
       pySplit (stripL line) ≠ [] ∧
       (titlePatternMatch (stripL line) = true ∨
         ∀ w ∈ pySplit (stripL line),
           w.any Char.isAlpha = true → headUpper w = true)) := by
  by_cases h1 : line.isEmpty = true
  · have h0 : line = [] := by
      cases line with
      | nil => rfl
      | cons a r => simp [List.isEmpty] at h1
    subst h0
    simp only [ne_eq, not_true, false_and, iff_false, Bool.not_eq_true]
    decide
  · have hne : line ≠ [] := by
      intro h; subst h; exact h1 rfl
    unfold looks_like_title
    rw [if_neg h1]
    by_cases h2 : line.length > 80
    · rw [if_pos h2]
      simp only [Bool.false_eq_true, false_iff]
      intro h
      have := h.2.1
      omega
    · rw [if_neg h2]
      dsimp only
      by_cases h3 : startsWithL "www".data (lowerL (stripL line)) = true
      · rw [if_pos h3]
        simp only [Bool.false_eq_true, false_iff]
        intro h
        rw [h.2.2.1] at h3
        exact absurd h3 (by simp)
      · rw [if_neg h3]
        by_cases h4 : (pySplit (stripL line)).isEmpty = true
        · rw [if_pos h4]
          have h4' : pySplit (stripL line) = [] := List.isEmpty_iff.mp h4
          simp only [Bool.false_eq_true, false_iff]
          intro h
          exact h.2.2.2.1 h4'
        · rw [if_neg h4]
          have h4' : pySplit (stripL line) ≠ [] := by
            intro h; rw [h] at h4; exact h4 rfl
          simp only [Bool.or_eq_true, List.all_eq_true, if_bool_imp]
          constructor
          · intro h
            exact ⟨hne, by omega, Bool.eq_false_iff.mpr h3, h4', h⟩
          · intro h
            exact h.2.2.2.2

end IRCodex

namespace IRCodex

/-- C2: on the spec's scenario stream the scan returns exactly the two
expected chapter records in order, their bodies containing the body lines;
and in general the scan's boundary test holds exactly when the (stripped)
current line is purely numeric, the next line looks like a title, and the
previous line is blank or the stream start. -/
theorem c2_segmentation_scenario :
    (segmentLines (["", "1", "Introduction", "Body line one.", "", "2",
        "Conclusion", "Body line two."].map String.data) =
      [{ number := 1, title := "Introduction".data, slug := "1-introduction".data,
         english_text := "Introduction\n\nBody line one.".data },
       { number := 2, title := "Conclusion".data, slug := "2-conclusion".data,
         english_text := "Conclusion\n\nBody line two.".data }]) ∧
    containsStr "Introduction\n\nBody line one.".data "Body line one.".data = true ∧
    containsStr "Conclusion\n\nBody line two.".data "Body line two.".data = true ∧
    (∀ l nx prev, boundaryCond l nx prev = true ↔
      (l ≠ [] ∧ (∀ c ∈ l, c.isDigit = true) ∧
        looks_like_title nx = true ∧ prev = [])) := by
  refine ⟨by decide, by decide, by decide, ?_⟩
  intro l nx prev
  simp only [boundaryCond, pyIsDigit, Bool.and_eq_true, Bool.not_eq_true,
    List.all_eq_true, List.isEmpty_iff, List.isEmpty_eq_true, ne_eq]
  constructor
  · rintro ⟨⟨⟨hne, hdig⟩, ht⟩, hp⟩
    exact ⟨by simpa using hne, hdig, ht, hp⟩
  · rintro ⟨hne, hdig, ht, hp⟩
    exact ⟨⟨⟨by simpa using hne, hdig⟩, ht⟩, hp⟩

/-- Witness for `c2_segmentation_scenario`: the boundary characterization
instantiated at the scenario's first boundary window. -/
theorem c2_segmentation_scenario_witness :
    boundaryCond "1".data "Introduction".data [] = true :=
  (c2_segmentation_scenario.2.2.2 "1".data "Introduction".data []).mpr (by decide)

end IRCodex

namespace IRCodex

theorem segmentAux_some_ne_nil :
    ∀ (lines : List Str) (prev : Str) (nt : Nat × Str) (curLines : List Str),
      segmentAux lines prev (some nt) curLines ≠ [] := by
  intro lines
  induction lines with
  | nil =>
    intro prev nt curLines
    simp [segmentAux, flushChapter]
  | cons line ls ih =>
    intro prev nt curLines
    cases ls with
    | nil =>
      simp only [segmentAux]
      by_cases h : boundaryCond (stripL line) [] (stripL prev) = true
      · simp [h, flushChapter]
      · simp [h, flushChapter]
    | cons nraw rest =>
      simp only [segmentAux]
      by_cases h : boundaryCond (stripL line) (stripL nraw) (stripL prev) = true
      · simp [h, flushChapter]
      · simp only [h, Bool.false_eq_true, if_false]
        exact ih line nt (curLines ++ [line])

theorem segmentAux_ne_nil_of_anyBoundary :
    ∀ (lines : List Str) (prev : Str) (curLines : List Str),
      anyBoundary prev lines = true → segmentAux lines prev none curLines ≠ [] := by
  intro lines
  induction lines with
  | nil =>
    intro prev curLines hb
    simp [anyBoundary] at hb
  | cons line ls ih =>
    intro prev curLines hb
    cases ls with
    | nil =>
      rw [anyBoundary] at hb
      simp only [List.headD_nil] at hb
      by_cases h : boundaryCond (stripL line) (stripL []) (stripL prev) = true
      · have h' : boundaryCond (stripL line) [] (stripL prev) = true := h
        simp only [segmentAux]
        simp [h', flushChapter]
      · rw [if_neg h] at hb
        simp [anyBoundary] at hb
    | cons nraw rest =>
      rw [anyBoundary] at hb
      simp only [List.headD_cons] at hb
      by_cases h : boundaryCond (stripL line) (stripL nraw) (stripL prev) = true
      · simp only [segmentAux, h, if_true]
        have := segmentAux_some_ne_nil rest nraw (natOfDigits (stripL line), stripL nraw) []
        intro hcontr
        rcases List.append_eq_nil.mp hcontr with ⟨-, h2⟩
        exact this h2
      · rw [if_neg h] at hb
        simp only [segmentAux, h, Bool.false_eq_true, if_false]
        exact ih line (curLines ++ [line]) hb

/-- C7: `extract_chapters` fails with the no-chapters error exactly when the
detected chapter sequence is empty, and whenever the scan meets at least one
boundary it returns a non-empty sequence of records without raising. -/
theorem c7_empty_result_fatality (lines : List Str) :
    ((∃ e, extract_chapters lines = Except.error e) ↔ segmentLines lines = []) ∧
    (anyBoundary [] lines = true →
      segmentLines lines ≠ [] ∧
      extract_chapters lines = Except.ok (segmentLines lines)) := by
  constructor
  · constructor
    · rintro ⟨e, he⟩
      unfold extract_chapters at he
      by_cases h : (segmentLines lines).isEmpty = true
      · exact List.isEmpty_iff.mp h
      · rw [if_neg h] at he
        cases he
    · intro h
      refine ⟨"No chapters were detected in the PDF. Check extraction heuristics.", ?_⟩
      unfold extract_chapters
      rw [h]
      rfl
  · intro hb
    have hne : segmentLines lines ≠ [] :=
      segmentAux_ne_nil_of_anyBoundary lines [] [] hb
    refine ⟨hne, ?_⟩
    unfold extract_chapters
    rw [if_neg (by simpa [List.isEmpty_iff] using hne)]

/-- Witness for `c7_empty_result_fatality` at the segmentation scenario
stream, whose scan meets a boundary. -/
theorem c7_empty_result_fatality_witness :
    segmentLines (["", "1", "Introduction", "Body line one."].map String.data) ≠ [] ∧
    extract_chapters (["", "1", "Introduction", "Body line one."].map String.data) =
      Except.ok (segmentLines (["", "1", "Introduction", "Body line one."].map String.data)) :=
  (c7_empty_result_fatality (["", "1", "Introduction", "Body line one."].map String.data)).2
    (by decide)

end IRCodex

namespace IRCodex

/-- Witness for `c3_title_heuristic_iff` at a concrete accepted title. -/
theorem c3_title_heuristic_iff_witness :
    looks_like_title "Introduction".data = true :=
  (c3_title_heuristic_iff "Introduction".data).mpr (by decide)

/-- Occurrence count of a token in a token list (instance-free model of
`Counter` counting). -/
def countTok (t : Token) : List Token → Nat
  | [] => 0
  | w :: ws => (if w = t then 1 else 0) + countTok t ws

theorem countTok_zero_of_not_mem (t : Token) :
    ∀ (l : List Token), t ∉ l → countTok t l = 0 := by
  intro l
  induction l with
  | nil => intro _; rfl
  | cons w ws ih =>
    intro h
    have hw : ¬(w = t) := fun hh => h (hh ▸ List.mem_cons_self w ws)
    have hws : t ∉ ws := fun hh => h (List.mem_cons_of_mem w hh)
    simp [countTok, hw, ih hws]

theorem countTok_nodup (t : Token) :
    ∀ (l : List Token), l.Nodup → countTok t l = if t ∈ l then 1 else 0 := by
  intro l
  induction l with
  | nil => intro _; simp [countTok]
  | cons w ws ih =>
    intro hl
    rw [List.nodup_cons] at hl
    by_cases h : w = t
    · subst h
      simp [countTok, countTok_zero_of_not_mem _ _ hl.1]
    · have h2 : ¬(t = w) := fun hh => h hh.symm
      simp [countTok, h, h2, ih hl.2]

/-- Spec-side closed form of the `freq` counter: the number of occurrence
positions of the token over all candidate phrase occurrences. -/
def freqSpec (phrases : List Phrase) (t : Token) : Nat :=
  (phrases.map fun p => countTok t p).sum

/-- Spec-side closed form of the `degree` counter: the containing phrase's
full length per occurrence position of the token, plus `length - 1` once
per phrase occurrence in which the token appears at all. -/
def degreeSpec (phrases : List Phrase) (t : Token) : Nat :=
  (phrases.map fun p =>
    countTok t p * p.length + (if t ∈ p then p.length - 1 else 0)).sum

theorem foldl_bump_apply (k : Nat) (p : List Token) :
    ∀ (f : Token → Nat) (t : Token),
      (p.foldl (fun g w => bump g w k) f) t = f t + countTok t p * k := by
  induction p with
  | nil => intro f t; simp [countTok]
  | cons w ws ih =>
    intro f t
    rw [List.foldl_cons, ih]
    by_cases h : t = w
    · subst h
      simp [bump, countTok]
      ring
    · have h2 : ¬(w = t) := fun hh => h hh.symm
      simp [bump, countTok, h, h2]

theorem freq_foldl (phrases : List Phrase) :
    ∀ (f : Token → Nat) (t : Token),
      (phrases.foldl (fun g p => p.foldl (fun h w => bump h w 1) g) f) t =
        f t + freqSpec phrases t := by
  induction phrases with
  | nil => intro f t; simp [freqSpec]
  | cons p ps ih =>
    intro f t
    rw [List.foldl_cons, ih, foldl_bump_apply]
    simp [freqSpec]
    ring

theorem degree_foldl (phrases : List Phrase) :
    ∀ (d : Token → Nat) (t : Token),
      (phrases.foldl
        (fun d p =>
          (p.dedup).foldl (fun e w => bump e w (p.length - 1))
            (p.foldl (fun e w => bump e w p.length) d)) d) t =
        d t + degreeSpec phrases t := by
  induction phrases with
  | nil => intro d t; simp [degreeSpec]
  | cons p ps ih =>
    intro d t
    rw [List.foldl_cons, ih, foldl_bump_apply, foldl_bump_apply]
    rw [countTok_nodup t p.dedup (List.nodup_dedup p)]
    simp only [List.mem_dedup]
    simp [degreeSpec]
    by_cases h : t ∈ p <;> simp [h] <;> ring

/-- C4: the scorer's `freq` counter counts occurrence positions, its
`degree` counter accumulates the containing phrase's full length per
occurrence plus `length - 1` per distinct token per phrase occurrence, the
per-token score is `degree / frequency`, and a phrase's score is the sum of
its member tokens' scores. -/
theorem c4_rake_scoring (phrases : List Phrase) :
    (∀ t, freqOf phrases t = freqSpec phrases t) ∧
    (∀ t, degreeOf phrases t = degreeSpec phrases t) ∧
    (∀ t, wordScore phrases t =
      (degreeSpec phrases t : ℚ) / (freqSpec phrases t : ℚ)) ∧
    (∀ p, phraseScore phrases p =
      ((p.map fun t =>
        (degreeSpec phrases t : ℚ) / (freqSpec phrases t : ℚ)).sum)) := by
  have hf : ∀ t, freqOf phrases t = freqSpec phrases t := by
    intro t
    unfold freqOf
    rw [freq_foldl]
    exact Nat.zero_add _
  have hdg : ∀ t, degreeOf phrases t = degreeSpec phrases t := by
    intro t
    unfold degreeOf
    rw [degree_foldl]
    exact Nat.zero_add _
  have hw : ∀ t, wordScore phrases t =
      (degreeSpec phrases t : ℚ) / (freqSpec phrases t : ℚ) := by
    intro t
    unfold wordScore
    rw [hf, hdg]
  refine ⟨hf, hdg, hw, ?_⟩
  intro p
  unfold phraseScore
  congr 1
  exact List.map_congr_left fun t _ => hw t

end IRCodex

namespace IRCodex

/-- C10: the frequency fallback applies no 4-character minimum: on
`"the war of the war"` the only candidate phrase is `"war"` (3 characters),
the ranked path rejects it, yet `extract` returns it via the fallback. -/
theorem c10_fallback_no_min_length :
    extract 8 "the war of the war".data = ["war".data] ∧
    ("war".data).length < 4 ∧
    rankedKeywords 8 (extract_candidate_phrases "the war of the war".data) = [] := by
  refine ⟨by decide, by decide, by decide⟩

theorem phraseScan_nil_of_all_stop :
    ∀ (ws : List Token), (∀ w ∈ ws, stopwords.contains w = true) →
      phraseScan [] ws = [] := by
  intro ws
  induction ws with
  | nil => intro _; rfl
  | cons w rest ih =>
    intro h
    have hw := h w (List.mem_cons_self w rest)
    simp only [phraseScan, hw, if_true, List.isEmpty_nil]
    exact ih fun x hx => h x (List.mem_cons_of_mem w hx)

/-- C9: a text composed entirely of stopwords produces no candidate
phrases, and `extract` returns the empty list (the fallback over token
frequencies is empty as well). -/
theorem c9_all_stopwords_empty (maxK : Nat) (text : Str)
    (h : ∀ s ∈ sentencesOf text, ∀ w ∈ sentenceWords s, stopwords.contains w = true) :
    extract_candidate_phrases text = [] ∧
    mostCommon maxK (extract_candidate_phrases text).flatten = [] ∧
    extract maxK text = [] := by
  have hp : extract_candidate_phrases text = [] := by
    unfold extract_candidate_phrases
    rw [List.flatten_eq_nil_iff]
    intro x hx
    rw [List.mem_map] at hx
    obtain ⟨s, hs, rfl⟩ := hx
    exact phraseScan_nil_of_all_stop _ (h s hs)
  refine ⟨hp, ?_, ?_⟩
  · rw [hp]
    simp [mostCommon, firstSeen, sortDescBy, List.take_nil]
  · unfold extract
    rw [hp]
    simp [rankedKeywords, scoredItems, firstSeen, sortDescBy, selectKeywords,
      mostCommon, List.take_nil]

/-- Witness for `c9_all_stopwords_empty` at a concrete all-stopword text. -/
theorem c9_all_stopwords_empty_witness :
    extract_candidate_phrases "the and of.".data = [] ∧
    mostCommon 8 (extract_candidate_phrases "the and of.".data).flatten = [] ∧
    extract 8 "the and of.".data = [] :=
  c9_all_stopwords_empty 8 "the and of.".data (by decide)

end IRCodex

namespace IRCodex

/-- Ranking order on enumerated scored items: strictly greater score, or
equal score and earlier encounter position. -/
def rankRel (a b : Nat × (Phrase × ℚ)) : Prop :=
  b.2.2 < a.2.2 ∨ (a.2.2 = b.2.2 ∧ a.1 < b.1)

theorem score_le_of_rankRel {a b : Nat × (Phrase × ℚ)} (h : rankRel a b) :
    b.2.2 ≤ a.2.2 := by
  rcases h with h | ⟨h, -⟩
  · exact le_of_lt h
  · exact le_of_eq h.symm

theorem mem_insertDescBy {α β} [LinearOrder β] (key : α → β) (x : α) :
    ∀ (l : List α) (z : α), z ∈ insertDescBy key x l ↔ z = x ∨ z ∈ l := by
  intro l z
  induction l with
  | nil => simp [insertDescBy]
  | cons y ys ih =>
    by_cases h : key y < key x
    · simp [insertDescBy, h]
    · simp only [insertDescBy, h, if_false]
      rw [List.mem_cons, ih, List.mem_cons]
      tauto

theorem insert_pairwise_rank (x : Nat × (Phrase × ℚ)) :
    ∀ (l : List (Nat × (Phrase × ℚ))), l.Pairwise rankRel →
      (∀ y ∈ l, y.1 < x.1) →
      (insertDescBy (fun p => p.2.2) x l).Pairwise rankRel := by
  intro l
  induction l with
  | nil => intro _ _; simp [insertDescBy]
  | cons y ys ih =>
    intro hl hx
    rw [List.pairwise_cons] at hl
    by_cases h : (fun p : Nat × (Phrase × ℚ) => p.2.2) y < (fun p : Nat × (Phrase × ℚ) => p.2.2) x
    · simp only [insertDescBy, h, if_true]
      rw [List.pairwise_cons]
      refine ⟨?_, List.pairwise_cons.mpr hl⟩
      intro z hz
      rw [List.mem_cons] at hz
      rcases hz with rfl | hz
      · exact Or.inl h
      · exact Or.inl (lt_of_le_of_lt (score_le_of_rankRel (hl.1 z hz)) h)
    · simp only [insertDescBy, h, if_false]
      rw [List.pairwise_cons]
      constructor
      · intro z hz
        rw [mem_insertDescBy] at hz
        rcases hz with rfl | hz
        · -- z = x : y relates to x since the score of x is not above y's
          rcases lt_or_eq_of_le (not_lt.mp h) with hlt | heq
          · exact Or.inl hlt
          · exact Or.inr ⟨heq.symm, hx y (List.mem_cons_self y ys)⟩
        · exact hl.1 z hz
      · exact ih hl.2 fun z hz => hx z (List.mem_cons_of_mem y hz)

theorem fold_insert_pairwise_rank :
    ∀ (xs acc : List (Nat × (Phrase × ℚ))),
      acc.Pairwise rankRel →
      xs.Pairwise (fun a b => a.1 < b.1) →
      (∀ y ∈ acc, ∀ x ∈ xs, y.1 < x.1) →
      (xs.foldl (fun a x => insertDescBy (fun p => p.2.2) x a) acc).Pairwise rankRel := by
  intro xs
  induction xs with
  | nil => intro acc h _ _; exact h
  | cons x xs' ih =>
    intro acc hacc hxs hsep
    rw [List.pairwise_cons] at hxs
    rw [List.foldl_cons]
    refine ih _ ?_ hxs.2 ?_
    · exact insert_pairwise_rank x acc hacc
        fun y hy => hsep y hy x (List.mem_cons_self x xs')
    · intro y hy z hz
      rw [mem_insertDescBy] at hy
      rcases hy with rfl | hy
      · exact hxs.1 z hz
      · exact hsep y hy z (List.mem_cons_of_mem x hz)

theorem mem_enumFrom_le {α} :
    ∀ (l : List α) (n : Nat) (x : Nat × α), x ∈ l.enumFrom n → n ≤ x.1 := by
  intro l
  induction l with
  | nil => intro n x h; simp [List.enumFrom] at h
  | cons a l' ih =>
    intro n x h
    rw [List.enumFrom] at h
    rw [List.mem_cons] at h
    rcases h with rfl | h
    · exact le_refl n
    · exact le_trans (Nat.le_succ n) (ih (n + 1) x h)

theorem pairwise_enumFrom {α} :
    ∀ (l : List α) (n : Nat), (l.enumFrom n).Pairwise (fun a b => a.1 < b.1) := by
  intro l
  induction l with
  | nil => intro n; simp [List.enumFrom]
  | cons a l' ih =>
    intro n
    rw [List.enumFrom, List.pairwise_cons]
    refine ⟨?_, ih (n + 1)⟩
    intro z hz
    exact lt_of_lt_of_le (Nat.lt_succ_self n) (mem_enumFrom_le l' (n + 1) z hz)

theorem sortDesc_enum_pairwise (items : List (Phrase × ℚ)) :
    (sortDescBy (fun pr : Nat × (Phrase × ℚ) => pr.2.2) items.enum).Pairwise rankRel := by
  unfold sortDescBy
  exact fold_insert_pairwise_rank items.enum [] (by simp)
    (pairwise_enumFrom items 0) (by simp)

end IRCodex

namespace IRCodex

theorem map_snd_insertDescBy (x : Nat × (Phrase × ℚ)) :
    ∀ (l : List (Nat × (Phrase × ℚ))),
      (insertDescBy (fun p : Nat × (Phrase × ℚ) => p.2.2) x l).map Prod.snd =
        insertDescBy (fun pr : Phrase × ℚ => pr.2) x.2 (l.map Prod.snd) := by
  intro l
  induction l with
  | nil => rfl
  | cons y ys ih =>
    by_cases h : y.2.2 < x.2.2
    · simp [insertDescBy, h]
    · simp only [insertDescBy, h, if_false, List.map_cons]
      rw [ih]

theorem map_snd_fold_insert :
    ∀ (xs acc : List (Nat × (Phrase × ℚ))),
      (xs.foldl (fun a x => insertDescBy (fun p : Nat × (Phrase × ℚ) => p.2.2) x a)
        acc).map Prod.snd =
      (xs.map Prod.snd).foldl
        (fun a x => insertDescBy (fun pr : Phrase × ℚ => pr.2) x a)
        (acc.map Prod.snd) := by
  intro xs
  induction xs with
  | nil => intro acc; rfl
  | cons x xs' ih =>
    intro acc
    rw [List.foldl_cons, List.map_cons, List.foldl_cons, ih, map_snd_insertDescBy]

theorem map_snd_sortDesc (items : List (Phrase × ℚ)) :
    (sortDescBy (fun p : Nat × (Phrase × ℚ) => p.2.2) items.enum).map Prod.snd =
      sortDescBy (fun pr : Phrase × ℚ => pr.2) items := by
  unfold sortDescBy
  rw [map_snd_fold_insert]
  rw [List.enum_map_snd]
  rfl

theorem select_sublist (maxK : Nat) :
    ∀ (items : List (Phrase × ℚ)) (seen : List Str) (k : Nat),
      (selectKeywords maxK items seen k).Sublist
        (items.map fun pr => joinSpace pr.1) := by
  intro items
  induction items with
  | nil => intro seen k; exact List.Sublist.refl []
  | cons it rest ih =>
    intro seen k
    obtain ⟨p, s⟩ := it
    simp only [selectKeywords, List.map_cons]
    by_cases h1 : (joinSpace p).length < 4
    · simp only [h1, if_true]
      exact (ih seen k).cons _
    · simp only [h1, if_false]
      by_cases h2 : seen.contains (joinSpace p) = true
      · simp only [h2, if_true]
        exact (ih seen k).cons _
      · simp only [h2, Bool.false_eq_true, if_false]
        by_cases h3 : maxK ≤ k + 1
        · simp only [h3, if_true]
          exact (List.nil_sublist _).cons₂ _
        · simp only [h3, if_false]
          exact (ih _ _).cons₂ _

theorem mem_select_len (maxK : Nat) :
    ∀ (items : List (Phrase × ℚ)) (seen : List Str) (k : Nat) (s : Str),
      s ∈ selectKeywords maxK items seen k → ¬(s.length < 4) := by
  intro items
  induction items with
  | nil => intro seen k s h; simp [selectKeywords] at h
  | cons it rest ih =>
    intro seen k s h
    obtain ⟨p, sc⟩ := it
    simp only [selectKeywords] at h
    by_cases h1 : (joinSpace p).length < 4
    · rw [if_pos h1] at h
      exact ih seen k s h
    · rw [if_neg h1] at h
      by_cases h2 : seen.contains (joinSpace p) = true
      · rw [if_pos h2] at h
        exact ih seen k s h
      · rw [if_neg h2] at h
        rw [List.mem_cons] at h
        rcases h with rfl | h
        · exact h1
        · by_cases h3 : maxK ≤ k + 1
          · rw [if_pos h3] at h
            simp at h
          · rw [if_neg h3] at h
            exact ih _ _ s h

theorem mem_select_not_seen (maxK : Nat) :
    ∀ (items : List (Phrase × ℚ)) (seen : List Str) (k : Nat) (s : Str),
      s ∈ selectKeywords maxK items seen k → s ∉ seen := by
  intro items
  induction items with
  | nil => intro seen k s h; simp [selectKeywords] at h
  | cons it rest ih =>
    intro seen k s h
    obtain ⟨p, sc⟩ := it
    simp only [selectKeywords] at h
    by_cases h1 : (joinSpace p).length < 4
    · rw [if_pos h1] at h; exact ih seen k s h
    · rw [if_neg h1] at h
      by_cases h2 : seen.contains (joinSpace p) = true
      · rw [if_pos h2] at h; exact ih seen k s h
      · rw [if_neg h2] at h
        rw [List.mem_cons] at h
        rcases h with rfl | h
        · intro hmem
          exact h2 (List.elem_eq_true_of_mem hmem)
        · by_cases h3 : maxK ≤ k + 1
          · rw [if_pos h3] at h; simp at h
          · rw [if_neg h3] at h
            have := ih _ _ s h
            intro hmem
            exact this (List.mem_cons_of_mem _ hmem)

theorem select_nodup (maxK : Nat) :
    ∀ (items : List (Phrase × ℚ)) (seen : List Str) (k : Nat),
      (selectKeywords maxK items seen k).Nodup := by
  intro items
  induction items with
  | nil => intro seen k; simp [selectKeywords]
  | cons it rest ih =>
    intro seen k
    obtain ⟨p, sc⟩ := it
    simp only [selectKeywords]
    by_cases h1 : (joinSpace p).length < 4
    · rw [if_pos h1]; exact ih seen k
    · rw [if_neg h1]
      by_cases h2 : seen.contains (joinSpace p) = true
      · rw [if_pos h2]; exact ih seen k
      · rw [if_neg h2]
        by_cases h3 : maxK ≤ k + 1
        · rw [if_pos h3]; simp
        · rw [if_neg h3]
          rw [List.nodup_cons]
          refine ⟨?_, ih _ _⟩
          intro hmem
          exact mem_select_not_seen maxK rest _ _ _ hmem (List.mem_cons_self _ _)

theorem select_length (maxK : Nat) :
    ∀ (items : List (Phrase × ℚ)) (seen : List Str) (k : Nat),
      (selectKeywords maxK items seen k).length ≤ max (maxK - k) 1 := by
  intro items
  induction items with
  | nil => intro seen k; simp [selectKeywords]
  | cons it rest ih =>
    intro seen k
    obtain ⟨p, sc⟩ := it
    simp only [selectKeywords]
    by_cases h1 : (joinSpace p).length < 4
    · rw [if_pos h1]; exact ih seen k
    · rw [if_neg h1]
      by_cases h2 : seen.contains (joinSpace p) = true
      · rw [if_pos h2]; exact ih seen k
      · rw [if_neg h2]
        by_cases h3 : maxK ≤ k + 1
        · rw [if_pos h3]
          simp only [List.length_cons, List.length_nil]
          omega
        · rw [if_neg h3]
          have := ih (joinSpace p :: seen) (k + 1)
          simp only [List.length_cons]
          omega

end IRCodex

namespace IRCodex

/-- C5 (amended): the ranked output is a selection, in order, from the
stably sorted scored items (descending score, ties by first-encounter
order); every kept keyword has a joined length of at least 4; there are no
duplicates; the length is at most `max maxK 1` (a configured maximum of 0
still yields one keyword); and whenever the ranked list is non-empty it is
exactly what `extract` returns. -/
theorem c5_ranked_output (maxK : Nat) (text : Str) :
    (sortDescBy (fun pr : Phrase × ℚ => pr.2)
        (scoredItems (extract_candidate_phrases text)) =
      (sortDescBy (fun p : Nat × (Phrase × ℚ) => p.2.2)
        (scoredItems (extract_candidate_phrases text)).enum).map Prod.snd) ∧
    (sortDescBy (fun p : Nat × (Phrase × ℚ) => p.2.2)
      (scoredItems (extract_candidate_phrases text)).enum).Pairwise rankRel ∧
    (rankedKeywords maxK (extract_candidate_phrases text)).Sublist
      ((sortDescBy (fun pr : Phrase × ℚ => pr.2)
        (scoredItems (extract_candidate_phrases text))).map fun pr => joinSpace pr.1) ∧
    (∀ s ∈ rankedKeywords maxK (extract_candidate_phrases text), ¬(s.length < 4)) ∧
    (rankedKeywords maxK (extract_candidate_phrases text)).Nodup ∧
    (rankedKeywords maxK (extract_candidate_phrases text)).length ≤ max maxK 1 ∧
    (rankedKeywords maxK (extract_candidate_phrases text) ≠ [] →
      extract maxK text = rankedKeywords maxK (extract_candidate_phrases text)) := by
  refine ⟨(map_snd_sortDesc _).symm, sortDesc_enum_pairwise _, ?_, ?_, ?_, ?_, ?_⟩
  · exact select_sublist maxK _ [] 0
  · intro s hs
    exact mem_select_len maxK _ [] 0 s hs
  · exact select_nodup maxK _ [] 0
  · have := select_length maxK
      (sortDescBy (fun pr : Phrase × ℚ => pr.2)
        (scoredItems (extract_candidate_phrases text))) [] 0
    simpa [rankedKeywords] using this
  · intro hne
    unfold extract
    rw [if_neg (by simpa [List.isEmpty_iff] using hne)]

/-- C5 (counterexample): with a configured maximum count of 0 the loop
appends the first qualifying candidate before testing the bound, so the
output has one keyword, exceeding the configured maximum. -/
theorem c5_maxcount_counterexample :
    extract 0 "machine learning".data = ["machine learning".data] ∧
    rankedKeywords 0 (extract_candidate_phrases "machine learning".data) =
      ["machine learning".data] ∧
    ¬((extract 0 "machine learning".data).length ≤ 0) := by
  refine ⟨by decide, by decide, by decide⟩

/-- Witness for `c5_ranked_output` at a concrete text with a non-empty
ranked list. -/
theorem c5_ranked_output_witness :
    extract 8 "Machine learning.".data =
      rankedKeywords 8 (extract_candidate_phrases "Machine learning.".data) ∧
    (∀ s ∈ rankedKeywords 8 (extract_candidate_phrases "Machine learning.".data),
      ¬(s.length < 4)) :=
  ⟨(c5_ranked_output 8 "Machine learning.".data).2.2.2.2.2.2 (by decide),
   fun s hs => (c5_ranked_output 8 "Machine learning.".data).2.2.2.1 s hs⟩

end IRCodex

namespace IRCodex

/-! Towards idempotence of `clean_text`: a string is *normal* when it has no
NBSP or BOM, every whitespace character in it is a plain space, no two
whitespace characters are adjacent, and it neither starts nor ends with
whitespace.  `normalize_line` outputs are normal, normal strings are fixed
points of `normalize_line`, and all paragraph-building operations preserve
normality. -/

/-- A character a normal string may contain. -/
def okChar (c : Char) : Bool :=
  !(c = '\u00A0') && !(c = '\uFEFF') && (!isWS c || c = ' ')

/-- No two adjacent whitespace characters. -/
def noDbl : Str → Bool
  | [] => true
  | [_] => true
  | a :: b :: r => !(isWS a && isWS b) && noDbl (b :: r)

/-- The first character, if any, is not whitespace. -/
def headOkB : Str → Bool
  | [] => true
  | c :: _ => !isWS c

/-- The last character, if any, is not whitespace. -/
def lastOkB (l : Str) : Bool := headOkB l.reverse

/-- Normal string: see the section comment. -/
def normalStr (l : Str) : Bool :=
  l.all okChar && noDbl l && headOkB l && lastOkB l

theorem noDbl_tail {a : Char} {l : Str} (h : noDbl (a :: l) = true) :
    noDbl l = true := by
  cases l with
  | nil => rfl
  | cons b r =>
    simp only [noDbl, Bool.and_eq_true] at h
    exact h.2

theorem noDbl_cons_of {a : Char} {l : Str}
    (hh : headOkB l = true) (hl : noDbl l = true) : noDbl (a :: l) = true := by
  cases l with
  | nil => rfl
  | cons b r =>
    simp only [headOkB] at hh
    simp only [noDbl, Bool.and_eq_true]
    exact ⟨by simp [hh], hl⟩

theorem noDbl_cons_not_ws {a : Char} {l : Str} (ha : isWS a = false)
    (hl : noDbl l = true) : noDbl (a :: l) = true := by
  cases l with
  | nil => rfl
  | cons b r =>
    simp only [noDbl, Bool.and_eq_true, ha]
    exact ⟨by simp, hl⟩

theorem headOkB_append {x : Str} (y : Str) (hne : x ≠ []) :
    headOkB (x ++ y) = headOkB x := by
  cases x with
  | nil => exact absurd rfl hne
  | cons a r => rfl

theorem lastOkB_cons {a : Char} {l : Str} (hne : l ≠ []) :
    lastOkB (a :: l) = lastOkB l := by
  unfold lastOkB
  rw [List.reverse_cons]
  exact headOkB_append [a] (by simpa using hne)

theorem lastOkB_append (x : Str) {y : Str} (hne : y ≠ []) :
    lastOkB (x ++ y) = lastOkB y := by
  unfold lastOkB
  rw [List.reverse_append]
  exact headOkB_append x.reverse (by simpa using hne)

theorem noDbl_append {x y : Str} (hx : noDbl x = true) (hy : noDbl y = true)
    (hj : ∀ cx, x.getLast? = some cx → ∀ cy, y.head? = some cy →
      (isWS cx && isWS cy) = false) : noDbl (x ++ y) = true := by
  induction x with
  | nil => exact hy
  | cons a r ih =>
    cases r with
    | nil =>
      cases y with
      | nil => rfl
      | cons b s =>
        simp only [List.cons_append, List.nil_append, noDbl, Bool.and_eq_true]
        refine ⟨?_, hy⟩
        have := hj a rfl b rfl
        simp [this]
    | cons a2 r2 =>
      simp only [noDbl, Bool.and_eq_true] at hx
      have hrec := ih hx.2 (by
        intro cx hcx cy hcy
        refine hj cx ?_ cy hcy
        rw [List.getLast?_cons_cons]
        exact hcx)
      simp only [List.cons_append, noDbl, Bool.and_eq_true] at hrec ⊢
      exact ⟨hx.1, hrec⟩

end IRCodex

namespace IRCodex

theorem collapseWSAux_cons (b : Bool) (a : Char) (r : Str) :
    collapseWSAux b (a :: r) =
      if isWS a = true then
        (if b = true then collapseWSAux true r else ' ' :: collapseWSAux true r)
      else a :: collapseWSAux false r := rfl

theorem collapseWSAux_mem :
    ∀ (l : Str) (b : Bool), ∀ c ∈ collapseWSAux b l,
      c = ' ' ∨ (c ∈ l ∧ isWS c = false) := by
  intro l
  induction l with
  | nil => intro b c hc; simp [collapseWSAux] at hc
  | cons a r ih =>
    intro b c hc
    rw [collapseWSAux_cons] at hc
    by_cases ha : isWS a = true
    · rw [if_pos ha] at hc
      cases b with
      | true =>
        rw [if_pos rfl] at hc
        rcases ih true c hc with h | ⟨h1, h2⟩
        · exact Or.inl h
        · exact Or.inr ⟨List.mem_cons_of_mem a h1, h2⟩
      | false =>
        rw [if_neg (by simp)] at hc
        rw [List.mem_cons] at hc
        rcases hc with rfl | hc
        · exact Or.inl rfl
        · rcases ih true c hc with h | ⟨h1, h2⟩
          · exact Or.inl h
          · exact Or.inr ⟨List.mem_cons_of_mem a h1, h2⟩
    · have ha' : isWS a = false := by simpa using ha
      rw [if_neg ha] at hc
      rw [List.mem_cons] at hc
      rcases hc with rfl | hc
      · exact Or.inr ⟨List.mem_cons_self _ _, ha'⟩
      · rcases ih false c hc with h | ⟨h1, h2⟩
        · exact Or.inl h
        · exact Or.inr ⟨List.mem_cons_of_mem a h1, h2⟩

theorem collapseWSAux_head_true :
    ∀ (l : Str), headOkB (collapseWSAux true l) = true := by
  intro l
  induction l with
  | nil => rfl
  | cons a r ih =>
    rw [collapseWSAux_cons]
    by_cases ha : isWS a = true
    · rw [if_pos ha, if_pos rfl]
      exact ih
    · rw [if_neg ha]
      have ha' : isWS a = false := by simpa using ha
      simp [headOkB, ha']

theorem collapseWSAux_noDbl :
    ∀ (l : Str) (b : Bool), noDbl (collapseWSAux b l) = true := by
  intro l
  induction l with
  | nil => intro b; rfl
  | cons a r ih =>
    intro b
    rw [collapseWSAux_cons]
    by_cases ha : isWS a = true
    · rw [if_pos ha]
      cases b with
      | true =>
        rw [if_pos rfl]
        exact ih true
      | false =>
        rw [if_neg (by simp)]
        exact noDbl_cons_of (collapseWSAux_head_true r) (ih true)
    · rw [if_neg ha]
      have ha' : isWS a = false := by simpa using ha
      exact noDbl_cons_not_ws ha' (ih false)

theorem collapseWSAux_head_false {l : Str} (h : headOkB l = true) :
    headOkB (collapseWSAux false l) = true := by
  cases l with
  | nil => rfl
  | cons a r =>
    simp only [headOkB] at h
    have ha : isWS a = false := by
      cases hh : isWS a
      · rfl
      · rw [hh] at h; simp at h
    rw [collapseWSAux_cons, if_neg (by simp [ha])]
    simp [headOkB, ha]

theorem collapseWSAux_last :
    ∀ (l : Str) (b : Bool), l ≠ [] → lastOkB l = true →
      collapseWSAux b l ≠ [] ∧ lastOkB (collapseWSAux b l) = true := by
  intro l
  induction l with
  | nil => intro b h _; exact absurd rfl h
  | cons a r ih =>
    intro b _ hl
    cases r with
    | nil =>
      have ha : isWS a = false := by
        simpa [lastOkB, headOkB] using hl
      rw [collapseWSAux_cons, if_neg (by simp [ha])]
      simp [collapseWSAux, lastOkB, headOkB, ha]
    | cons a2 r2 =>
      have hl' : lastOkB (a2 :: r2) = true := by
        rw [lastOkB_cons (by simp)] at hl
        exact hl
      rw [collapseWSAux_cons]
      by_cases ha : isWS a = true
      · rw [if_pos ha]
        cases b with
        | true =>
          rw [if_pos rfl]
          exact ih true (by simp) hl'
        | false =>
          rw [if_neg (by simp)]
          have iht := ih true (by simp) hl'
          refine ⟨by simp, ?_⟩
          rw [lastOkB_cons iht.1]
          exact iht.2
      · rw [if_neg ha]
        have ihf := ih false (by simp) hl'
        refine ⟨by simp, ?_⟩
        rw [lastOkB_cons ihf.1]
        exact ihf.2

end IRCodex

namespace IRCodex

theorem headOkB_stripL (l : Str) : headOkB (stripL l) = true := by
  rcases h : stripL l with _ | ⟨c, r⟩
  · rfl
  · have hh : (stripL l).head? = some c := by rw [h]; rfl
    unfold stripL at hh
    rw [List.head?_reverse] at hh
    have hne : (l.dropWhile isWS).reverse.dropWhile isWS ≠ [] := by
      intro hx
      rw [stripL, hx] at h
      simp at h
    rw [getLast_dropWhile_of_ne_nil _ _ hne, List.getLast?_reverse] at hh
    have := head_dropWhile_not isWS l c hh
    simp [headOkB, this]

theorem lastOkB_stripL (l : Str) : lastOkB (stripL l) = true := by
  rcases h : (stripL l).reverse with _ | ⟨c, r⟩
  · unfold lastOkB
    rw [h]
    rfl
  · have hh : (stripL l).reverse.head? = some c := by rw [h]; rfl
    unfold stripL at hh
    rw [List.reverse_reverse] at hh
    have := head_dropWhile_not isWS (l.dropWhile isWS).reverse c hh
    simp [lastOkB, h, headOkB, this]

theorem mem_stripL (l : Str) : ∀ c ∈ stripL l, c ∈ l := by
  intro c hc
  unfold stripL at hc
  rw [List.mem_reverse] at hc
  have := mem_dropWhile _ _ _ hc
  rw [List.mem_reverse] at this
  exact mem_dropWhile _ _ _ this

theorem dropWhile_id_of_headOkB {l : Str} (h : headOkB l = true) :
    l.dropWhile isWS = l := by
  cases l with
  | nil => rfl
  | cons a r =>
    simp only [headOkB] at h
    rw [List.dropWhile_cons_of_neg (by simp [Bool.not_eq_true] at h ⊢; exact h)]

theorem stripL_id {l : Str} (hh : headOkB l = true) (hl : lastOkB l = true) :
    stripL l = l := by
  unfold stripL
  rw [dropWhile_id_of_headOkB hh]
  rw [dropWhile_id_of_headOkB hl]
  exact List.reverse_reverse l

theorem map_nbsp_id {l : Str} (h : ∀ c ∈ l, okChar c = true) :
    (l.map fun c => if c = ' ' then ' ' else c) = l := by
  induction l with
  | nil => rfl
  | cons a r ih =>
    have ha := h a (List.mem_cons_self a r)
    have hnb : ¬(a = ' ') := by
      simp only [okChar, Bool.and_eq_true, Bool.not_eq_true'] at ha
      simp [decide_eq_false_iff_not] at ha
      exact ha.1.1
    rw [List.map_cons, if_neg hnb, ih fun c hc => h c (List.mem_cons_of_mem a hc)]

theorem filter_bom_id {l : Str} (h : ∀ c ∈ l, okChar c = true) :
    (l.filter fun c => c ≠ '\uFEFF') = l := by
  rw [List.filter_eq_self]
  intro c hc
  have := h c hc
  simp only [okChar, Bool.and_eq_true, Bool.not_eq_true'] at this
  simp [decide_eq_true_iff]
  simp [decide_eq_false_iff_not] at this
  exact this.1.2

theorem collapseWS_id :
    ∀ (l : Str), (∀ c ∈ l, okChar c = true) → noDbl l = true →
      collapseWSAux false l = l ∧
      (headOkB l = true → collapseWSAux true l = l) := by
  intro l
  induction l with
  | nil => intro _ _; exact ⟨rfl, fun _ => rfl⟩
  | cons a r ih =>
    intro hok hnd
    have ihr := ih (fun c hc => hok c (List.mem_cons_of_mem a hc)) (noDbl_tail hnd)
    constructor
    · rw [collapseWSAux_cons]
      by_cases ha : isWS a = true
      · have haSp : a = ' ' := by
          have := hok a (List.mem_cons_self a r)
          simp only [okChar, Bool.and_eq_true, Bool.or_eq_true, Bool.not_eq_true'] at this
          rcases this.2 with h | h
          · rw [ha] at h; cases h
          · exact of_decide_eq_true h
        rw [if_pos ha, if_neg (by simp)]
        have hr : collapseWSAux true r = r := by
          apply ihr.2
          cases r with
          | nil => rfl
          | cons b s =>
            simp only [noDbl, Bool.and_eq_true, ha] at hnd
            simp only [headOkB]
            simp only [Bool.true_and] at hnd
            simpa using hnd.1
        rw [hr, haSp]
      · rw [if_neg ha, ihr.1]
    · intro hh
      rw [collapseWSAux_cons]
      simp only [headOkB] at hh
      rw [if_neg (by simpa using hh)]
      rw [ihr.1]

theorem normal_normalize_id {l : Str} (h : normalStr l = true) :
    normalize_line l = l := by
  simp only [normalStr, Bool.and_eq_true] at h
  obtain ⟨⟨⟨hok, hnd⟩, hh⟩, hl⟩ := h
  rw [List.all_eq_true] at hok
  unfold normalize_line
  rw [map_nbsp_id hok, filter_bom_id hok, stripL_id hh hl]
  exact (collapseWS_id l hok hnd).1

end IRCodex

namespace IRCodex

theorem pre_line_clean (l : Str) :
    ∀ c ∈ ((l.map fun c => if c = ' ' then ' ' else c).filter
      fun c => c ≠ '﻿'), ¬(c = ' ') ∧ ¬(c = '﻿') := by
  intro c hc
  rw [List.mem_filter] at hc
  obtain ⟨hm, hf⟩ := hc
  rw [List.mem_map] at hm
  obtain ⟨d, -, hd⟩ := hm
  constructor
  · intro hcn
    by_cases hdn : d = ' '
    · rw [if_pos hdn] at hd
      rw [← hd] at hcn
      exact absurd hcn (by decide)
    · rw [if_neg hdn] at hd
      exact hdn (hd ▸ hcn)
  · intro hcf
    rw [hcf] at hf
    simp at hf

theorem normal_normalize (l : Str) : normalStr (normalize_line l) = true := by
  unfold normalize_line
  set p := ((l.map fun c => if c = ' ' then ' ' else c).filter
    fun c => c ≠ '﻿') with hp
  have hmem : ∀ c ∈ stripL p, ¬(c = ' ') ∧ ¬(c = '﻿') :=
    fun c hc => pre_line_clean l c (mem_stripL p c hc)
  have hok : ∀ c ∈ collapseWSAux false (stripL p), okChar c = true := by
    intro c hc
    rcases collapseWSAux_mem (stripL p) false c hc with rfl | ⟨h1, h2⟩
    · decide
    · have := hmem c h1
      simp [okChar, this.1, this.2, h2]
  unfold normalStr collapseWS
  rw [Bool.and_eq_true, Bool.and_eq_true, Bool.and_eq_true]
  refine ⟨⟨⟨List.all_eq_true.mpr hok, collapseWSAux_noDbl _ false⟩, ?_⟩, ?_⟩
  · exact collapseWSAux_head_false (headOkB_stripL p)
  · rcases hsl : stripL p with _ | ⟨c, r⟩
    · rfl
    · have hne : stripL p ≠ [] := by rw [hsl]; simp
      have := collapseWSAux_last (stripL p) false hne (lastOkB_stripL p)
      rw [hsl] at this
      exact this.2

end IRCodex

namespace IRCodex

/-- A good paragraph piece: non-empty and normal. -/
def GoodPara (p : Str) : Prop := p ≠ [] ∧ normalStr p = true

theorem normalStr_parts {p : Str} (h : normalStr p = true) :
    (∀ c ∈ p, okChar c = true) ∧ noDbl p = true ∧
      headOkB p = true ∧ lastOkB p = true := by
  simp only [normalStr, Bool.and_eq_true, List.all_eq_true] at h
  exact ⟨h.1.1.1, h.1.1.2, h.1.2, h.2⟩

theorem normalStr_of_parts {p : Str} (h1 : ∀ c ∈ p, okChar c = true)
    (h2 : noDbl p = true) (h3 : headOkB p = true) (h4 : lastOkB p = true) :
    normalStr p = true := by
  simp only [normalStr, Bool.and_eq_true, List.all_eq_true]
  exact ⟨⟨⟨h1, h2⟩, h3⟩, h4⟩

theorem noDbl_of_append_left : ∀ (x t : Str), noDbl (x ++ t) = true → noDbl x = true := by
  intro x
  induction x with
  | nil => intro t _; rfl
  | cons a r ih =>
    intro t h
    cases r with
    | nil => rfl
    | cons b s =>
      simp only [List.cons_append, noDbl, Bool.and_eq_true] at h ⊢
      exact ⟨h.1, ih t h.2⟩

theorem headOkB_of_prefix {x z : Str} (h : x <+: z) (hne : x ≠ [])
    (hz : headOkB z = true) : headOkB x = true := by
  obtain ⟨t, rfl⟩ := h
  rw [headOkB_append t hne] at hz
  exact hz

theorem head_not_ws_of_headOkB {p : Str} {c : Char} (h : headOkB p = true)
    (hc : p.head? = some c) : isWS c = false := by
  cases p with
  | nil => cases hc
  | cons a r =>
    simp only [List.head?_cons, Option.some.injEq] at hc
    subst hc
    simpa [headOkB, Bool.not_eq_true] using h

theorem good_merge {q p : Str} (hq : GoodPara q) (hp : GoodPara p) :
    GoodPara (q.dropLast ++ p) := by
  obtain ⟨hqne, hqn⟩ := hq
  obtain ⟨hpne, hpn⟩ := hp
  obtain ⟨hq1, hq2, hq3, hq4⟩ := normalStr_parts hqn
  obtain ⟨hp1, hp2, hp3, hp4⟩ := normalStr_parts hpn
  have hpre : q.dropLast <+: q := List.dropLast_prefix q
  refine ⟨by simp [hpne], ?_⟩
  refine normalStr_of_parts ?_ ?_ ?_ ?_
  · intro c hc
    rw [List.mem_append] at hc
    rcases hc with hc | hc
    · exact hq1 c (hpre.subset hc)
    · exact hp1 c hc
  · refine noDbl_append ?_ hp2 ?_
    · obtain ⟨t, ht⟩ := hpre
      exact noDbl_of_append_left _ t (by rw [ht]; exact hq2)
    · intro cx _ cy hcy
      have := head_not_ws_of_headOkB hp3 hcy
      simp [this]
  · rcases hdl : q.dropLast with _ | ⟨a, r⟩
    · simpa using hp3
    · rw [headOkB_append p (by simp)]
      have := headOkB_of_prefix hpre (by rw [hdl]; simp) hq3
      rw [hdl] at this
      exact this
  · rw [lastOkB_append _ hpne]
    exact hp4

end IRCodex

namespace IRCodex

theorem last_not_ws_of_lastOkB {p : Str} {c : Char} (h : lastOkB p = true)
    (hc : p.getLast? = some c) : isWS c = false := by
  unfold lastOkB at h
  rw [← List.head?_reverse] at hc
  exact head_not_ws_of_headOkB h hc

theorem good_joinWith_space :
    ∀ (parts : List Str), parts ≠ [] → (∀ p ∈ parts, GoodPara p) →
      GoodPara (joinWith [' '] parts) := by
  intro parts
  induction parts with
  | nil => intro h _; exact absurd rfl h
  | cons p rest ih =>
    intro _ hall
    cases rest with
    | nil => exact hall p (List.mem_cons_self p [])
    | cons q rest' =>
      have hR := ih (by simp) fun x hx => hall x (List.mem_cons_of_mem p hx)
      have hp := hall p (List.mem_cons_self _ _)
      obtain ⟨hpne, hpn⟩ := hp
      obtain ⟨hp1, hp2, hp3, hp4⟩ := normalStr_parts hpn
      obtain ⟨hRne, hRn⟩ := hR
      obtain ⟨hR1, hR2, hR3, hR4⟩ := normalStr_parts hRn
      show GoodPara (p ++ [' '] ++ joinWith [' '] (q :: rest'))
      set R := joinWith [' '] (q :: rest') with hRdef
      rw [List.append_assoc]
      have hY : ([' '] ++ R) = ' ' :: R := rfl
      rw [hY]
      refine ⟨by simp [hpne], normalStr_of_parts ?_ ?_ ?_ ?_⟩
      · intro c hc
        rw [List.mem_append] at hc
        rcases hc with hc | hc
        · exact hp1 c hc
        · rw [List.mem_cons] at hc
          rcases hc with rfl | hc
          · decide
          · exact hR1 c hc
      · refine noDbl_append hp2 (noDbl_cons_of hR3 hR2) ?_
        intro cx hcx cy hcy
        have := last_not_ws_of_lastOkB hp4 hcx
        simp [this]
      · rw [headOkB_append _ hpne]
        exact hp3
      · rw [lastOkB_append _ (by simp), lastOkB_cons hRne]
        exact hR4

theorem buildParts_nil (ps : List Str) : buildParts ps [] = ps.reverse := rfl

theorem buildParts_cons (ps : List Str) (p : Str) (rest : List Str) :
    buildParts ps (p :: rest) =
      if p = [] then buildParts ps rest
      else
        match ps with
        | [] => buildParts [p] rest
        | q :: qs =>
          if endsDash q then buildParts ((q.dropLast ++ p) :: qs) rest
          else buildParts (p :: q :: qs) rest := rfl

theorem buildParts_good :
    ∀ (rest ps : List Str), (∀ p ∈ ps, GoodPara p) →
      (∀ p ∈ rest, p = [] ∨ GoodPara p) →
      (∀ q ∈ buildParts ps rest, GoodPara q) ∧
      (ps ≠ [] → buildParts ps rest ≠ []) := by
  intro rest
  induction rest with
  | nil =>
    intro ps hps _
    rw [buildParts_nil]
    constructor
    · intro q hq
      exact hps q (List.mem_reverse.mp hq)
    · intro h
      simpa using h
  | cons p rest' ih =>
    intro ps hps hrest
    have hrest' : ∀ x ∈ rest', x = [] ∨ GoodPara x :=
      fun x hx => hrest x (List.mem_cons_of_mem p hx)
    rw [buildParts_cons]
    by_cases hp : p = []
    · rw [if_pos hp]
      exact ih ps hps hrest'
    · rw [if_neg hp]
      have hpg : GoodPara p := by
        rcases hrest p (List.mem_cons_self _ _) with h | h
        · exact absurd h hp
        · exact h
      cases ps with
      | nil =>
        have := ih [p] (by
          intro x hx
          rw [List.mem_singleton] at hx
          subst hx
          exact hpg) hrest'
        exact ⟨this.1, fun _ => this.2 (by simp)⟩
      | cons q qs =>
        have hq : GoodPara q := hps q (List.mem_cons_self _ _)
        have hqs : ∀ x ∈ qs, GoodPara x := fun x hx => hps x (List.mem_cons_of_mem q hx)
        dsimp only
        by_cases hd : endsDash q = true
        · rw [if_pos hd]
          have := ih ((q.dropLast ++ p) :: qs) (by
            intro x hx
            rw [List.mem_cons] at hx
            rcases hx with rfl | hx
            · exact good_merge hq hpg
            · exact hqs x hx) hrest'
          exact ⟨this.1, fun _ => this.2 (by simp)⟩
        · rw [if_neg hd]
          have := ih (p :: q :: qs) (by
            intro x hx
            rw [List.mem_cons] at hx
            rcases hx with rfl | hx
            · exact hpg
            · rw [List.mem_cons] at hx
              rcases hx with rfl | hx
              · exact hq
              · exact hqs x hx) hrest'
          exact ⟨this.1, fun _ => this.2 (by simp)⟩

theorem good_merge_buffer :
    ∀ (buf : List Str), buf ≠ [] → (∀ p ∈ buf, GoodPara p) →
      GoodPara (merge_buffer buf) := by
  intro buf hne hall
  unfold merge_buffer
  cases buf with
  | nil => exact absurd rfl hne
  | cons g rest =>
    have hg : GoodPara g := hall g (List.mem_cons_self _ _)
    have hstep : buildParts [] (g :: rest) = buildParts [g] rest := by
      rw [buildParts_cons, if_neg hg.1]
    rw [hstep]
    have hbp := buildParts_good rest [g] (by
      intro x hx
      rw [List.mem_singleton] at hx
      subst hx
      exact hg) (fun x hx => Or.inr (hall x (List.mem_cons_of_mem g hx)))
    exact good_joinWith_space _ (hbp.2 (by simp)) hbp.1

end IRCodex

namespace IRCodex

theorem buildParas_nil (buf : List Str) :
    buildParas buf [] =
      match buf with
      | [] => []
      | _ :: _ => [merge_buffer buf.reverse] := rfl

theorem buildParas_cons (buf : List Str) (l : Str) (ls : List Str) :
    buildParas buf (l :: ls) =
      if l = [] then
        match buf with
        | [] => buildParas [] ls
        | _ :: _ => merge_buffer buf.reverse :: buildParas [] ls
      else
        match buf with
        | [] => buildParas [l] ls
        | b :: bs =>
          if endsDash b && headLower l then buildParas ((b.dropLast ++ l) :: bs) ls
          else buildParas (l :: b :: bs) ls := rfl

theorem buildParas_good :
    ∀ (ls buf : List Str), (∀ l ∈ ls, l = [] ∨ GoodPara l) →
      (∀ b ∈ buf, GoodPara b) → ∀ p ∈ buildParas buf ls, GoodPara p := by
  intro ls
  induction ls with
  | nil =>
    intro buf _ hbuf p hp
    rw [buildParas_nil] at hp
    cases buf with
    | nil => simp at hp
    | cons b bs =>
      rw [List.mem_singleton] at hp
      subst hp
      exact good_merge_buffer _ (by simp) fun x hx =>
        hbuf x (List.mem_reverse.mp hx)
  | cons l ls' ih =>
    intro buf hls hbuf p hp
    have hls' : ∀ x ∈ ls', x = [] ∨ GoodPara x :=
      fun x hx => hls x (List.mem_cons_of_mem l hx)
    rw [buildParas_cons] at hp
    by_cases hl : l = []
    · rw [if_pos hl] at hp
      cases buf with
      | nil => exact ih [] hls' (by simp) p hp
      | cons b bs =>
        rw [List.mem_cons] at hp
        rcases hp with rfl | hp
        · exact good_merge_buffer _ (by simp) fun x hx =>
            hbuf x (List.mem_reverse.mp hx)
        · exact ih [] hls' (by simp) p hp
    · rw [if_neg hl] at hp
      have hlg : GoodPara l := by
        rcases hls l (List.mem_cons_self _ _) with h | h
        · exact absurd h hl
        · exact h
      cases buf with
      | nil =>
        refine ih [l] hls' ?_ p hp
        intro x hx
        rw [List.mem_singleton] at hx
        subst hx
        exact hlg
      | cons b bs =>
        have hb : GoodPara b := hbuf b (List.mem_cons_self _ _)
        have hbs : ∀ x ∈ bs, GoodPara x := fun x hx => hbuf x (List.mem_cons_of_mem b hx)
        dsimp only at hp
        by_cases hd : (endsDash b && headLower l) = true
        · rw [if_pos hd] at hp
          refine ih _ hls' ?_ p hp
          intro x hx
          rw [List.mem_cons] at hx
          rcases hx with rfl | hx
          · exact good_merge hb hlg
          · exact hbs x hx
        · rw [if_neg hd] at hp
          refine ih _ hls' ?_ p hp
          intro x hx
          rw [List.mem_cons] at hx
          rcases hx with rfl | hx
          · exact hlg
          · rw [List.mem_cons] at hx
            rcases hx with rfl | hx
            · exact hb
            · exact hbs x hx

theorem dedupBlanks_mem :
    ∀ (b : Bool) (ls : List Str), ∀ x ∈ dedupBlanks b ls, x = [] ∨ x ∈ ls := by
  intro b ls
  induction ls generalizing b with
  | nil => intro x hx; simp [dedupBlanks] at hx
  | cons l ls' ih =>
    intro x hx
    unfold dedupBlanks at hx
    by_cases hl : l = []
    · rw [if_pos hl] at hx
      cases b with
      | true =>
        rw [if_pos rfl] at hx
        rw [List.mem_cons] at hx
        rcases hx with rfl | hx
        · exact Or.inl rfl
        · rcases ih false x hx with h | h
          · exact Or.inl h
          · exact Or.inr (List.mem_cons_of_mem l h)
      | false =>
        rw [if_neg (by simp)] at hx
        rcases ih false x hx with h | h
        · exact Or.inl h
        · exact Or.inr (List.mem_cons_of_mem l h)
    · rw [if_neg hl] at hx
      rw [List.mem_cons] at hx
      rcases hx with rfl | hx
      · exact Or.inr (List.mem_cons_self _ _)
      · rcases ih true x hx with h | h
        · exact Or.inl h
        · exact Or.inr (List.mem_cons_of_mem l h)

/-- Every paragraph produced by `clean_text`'s pipeline is good. -/
theorem clean_text_paras_good (text : Str) :
    ∀ p ∈ buildParas []
      (dedupBlanks false ((splitNL (fixCR text)).map normalize_line)), GoodPara p := by
  intro p hp
  refine buildParas_good _ [] ?_ (by simp) p hp
  intro x hx
  rcases dedupBlanks_mem false _ x hx with h | h
  · exact Or.inl h
  · rw [List.mem_map] at h
    obtain ⟨y, -, rfl⟩ := h
    by_cases hy : normalize_line y = []
    · exact Or.inl hy
    · exact Or.inr ⟨hy, normal_normalize y⟩

end IRCodex

namespace IRCodex

/-- The interleaving of paragraphs with single blank-line separators, as
`splitNL` recovers it from a double-newline join. -/
def interA : List Str → List Str
  | [] => []
  | [p] => [p]
  | p :: q :: rest => p :: [] :: interA (q :: rest)

theorem map_id_of {α} (f : α → α) :
    ∀ (l : List α), (∀ x ∈ l, f x = x) → l.map f = l := by
  intro l
  induction l with
  | nil => intro _; rfl
  | cons a r ih =>
    intro h
    rw [List.map_cons, h a (List.mem_cons_self a r),
      ih fun x hx => h x (List.mem_cons_of_mem a hx)]

theorem fixCR_cons_ne {c : Char} (rest : Str) (h : ¬(c = '\r')) :
    fixCR (c :: rest) = c :: fixCR rest := by
  rw [fixCR.eq_def]
  dsimp only
  rw [if_neg h]

theorem fixCR_id : ∀ (l : Str), (∀ c ∈ l, ¬(c = '\r')) → fixCR l = l := by
  intro l
  induction l with
  | nil => intro _; rfl
  | cons c rest ih =>
    intro h
    rw [fixCR_cons_ne rest (h c (List.mem_cons_self c rest)),
      ih fun x hx => h x (List.mem_cons_of_mem c hx)]

theorem splitNL_cons (c : Char) (rest : Str) :
    splitNL (c :: rest) =
      if c = '\n' then [] :: splitNL rest
      else
        match splitNL rest with
        | [] => [[c]]
        | l :: ls => (c :: l) :: ls := rfl

theorem splitNL_no_nl : ∀ (p : Str), (∀ c ∈ p, ¬(c = '\n')) → splitNL p = [p] := by
  intro p
  induction p with
  | nil => intro _; rfl
  | cons c rest ih =>
    intro h
    rw [splitNL_cons, if_neg (h c (List.mem_cons_self c rest)),
      ih fun x hx => h x (List.mem_cons_of_mem c hx)]

theorem splitNL_append : ∀ (p t : Str), (∀ c ∈ p, ¬(c = '\n')) →
    splitNL (p ++ '\n' :: t) = p :: splitNL t := by
  intro p
  induction p with
  | nil =>
    intro t _
    rw [List.nil_append, splitNL_cons, if_pos rfl]
  | cons c rest ih =>
    intro t h
    rw [List.cons_append, splitNL_cons,
      if_neg (h c (List.mem_cons_self c rest)),
      ih t fun x hx => h x (List.mem_cons_of_mem c hx)]

theorem no_nl_of_good {p : Str} (h : GoodPara p) : ∀ c ∈ p, ¬(c = '\r') ∧ ¬(c = '\n') := by
  intro c hc
  have hok := (normalStr_parts h.2).1 c hc
  simp only [okChar, Bool.and_eq_true, Bool.or_eq_true, Bool.not_eq_true'] at hok
  rcases hok.2 with hw | hs
  · constructor
    · intro hcr; subst hcr; exact absurd hw (by decide)
    · intro hcn; subst hcn; exact absurd hw (by decide)
  · have : c = ' ' := of_decide_eq_true hs
    subst this
    exact ⟨by decide, by decide⟩

theorem splitNL_join : ∀ (ps : List Str), ps ≠ [] → (∀ p ∈ ps, GoodPara p) →
    splitNL (joinWith ['\n', '\n'] ps) = interA ps := by
  intro ps
  induction ps with
  | nil => intro h _; exact absurd rfl h
  | cons p rest ih =>
    intro _ hall
    have hp := hall p (List.mem_cons_self _ _)
    have hnl : ∀ c ∈ p, ¬(c = '\n') := fun c hc => (no_nl_of_good hp c hc).2
    cases rest with
    | nil =>
      rw [show joinWith ['\n', '\n'] [p] = p from by rw [joinWith],
        splitNL_no_nl p hnl]
      rw [show interA [p] = [p] from by rw [interA]]
    | cons q rest' =>
      rw [joinWith, List.append_assoc]
      rw [show (['\n', '\n'] : Str) ++ joinWith ['\n', '\n'] (q :: rest') =
        '\n' :: '\n' :: joinWith ['\n', '\n'] (q :: rest') from rfl]
      rw [splitNL_append p _ hnl, splitNL_cons, if_pos rfl,
        ih (by simp) fun x hx => hall x (List.mem_cons_of_mem p hx)]
      rw [show interA (p :: q :: rest') = p :: [] :: interA (q :: rest') from by
        rw [interA]]

theorem mem_interA : ∀ (ps : List Str), ∀ x ∈ interA ps, x = [] ∨ x ∈ ps := by
  intro ps
  induction ps with
  | nil => intro x hx; simp [interA] at hx
  | cons p rest ih =>
    intro x hx
    cases rest with
    | nil =>
      rw [show interA [p] = [p] from rfl, List.mem_singleton] at hx
      exact Or.inr (hx ▸ List.mem_cons_self _ _)
    | cons q rest' =>
      rw [show interA (p :: q :: rest') = p :: [] :: interA (q :: rest') from rfl] at hx
      rw [List.mem_cons] at hx
      rcases hx with rfl | hx
      · exact Or.inr (List.mem_cons_self _ _)
      · rw [List.mem_cons] at hx
        rcases hx with rfl | hx
        · exact Or.inl rfl
        · rcases ih x hx with h | h
          · exact Or.inl h
          · exact Or.inr (List.mem_cons_of_mem p h)

theorem dedupBlanks_interA : ∀ (ps : List Str), (∀ p ∈ ps, GoodPara p) →
    dedupBlanks false (interA ps) = interA ps := by
  intro ps
  induction ps with
  | nil => intro _; rfl
  | cons p rest ih =>
    intro hall
    have hp := hall p (List.mem_cons_self _ _)
    cases rest with
    | nil =>
      show dedupBlanks false [p] = [p]
      unfold dedupBlanks
      rw [if_neg hp.1]
      rfl
    | cons q rest' =>
      show dedupBlanks false (p :: [] :: interA (q :: rest')) =
        p :: [] :: interA (q :: rest')
      unfold dedupBlanks
      rw [if_neg hp.1]
      unfold dedupBlanks
      rw [if_pos rfl, if_pos rfl]
      rw [ih fun x hx => hall x (List.mem_cons_of_mem p hx)]

theorem merge_buffer_singleton {p : Str} (hne : p ≠ []) : merge_buffer [p] = p := by
  unfold merge_buffer
  rw [buildParts_cons, if_neg hne]
  rfl

theorem buildParas_interA : ∀ (ps : List Str), (∀ p ∈ ps, GoodPara p) →
    buildParas [] (interA ps) = ps := by
  intro ps
  induction ps with
  | nil => intro _; rfl
  | cons p rest ih =>
    intro hall
    have hp := hall p (List.mem_cons_self _ _)
    cases rest with
    | nil =>
      show buildParas [] [p] = [p]
      rw [buildParas_cons, if_neg hp.1]
      dsimp only
      rw [buildParas_nil]
      dsimp only
      rw [List.reverse_singleton, merge_buffer_singleton hp.1]
    | cons q rest' =>
      show buildParas [] (p :: [] :: interA (q :: rest')) = p :: q :: rest'
      rw [buildParas_cons, if_neg hp.1]
      dsimp only
      rw [buildParas_cons, if_pos rfl]
      dsimp only
      rw [List.reverse_singleton, merge_buffer_singleton hp.1]
      rw [ih fun x hx => hall x (List.mem_cons_of_mem p hx)]

end IRCodex

namespace IRCodex

theorem joinWith_ne_nil {s p : Str} (rest : List Str) (hp : p ≠ []) :
    joinWith s (p :: rest) ≠ [] := by
  cases rest with
  | nil =>
    rw [joinWith]
    exact hp
  | cons q rest' =>
    rw [joinWith]
    simp [hp]

theorem headOkB_joinWith {ps : List Str} (h : ∀ p ∈ ps, GoodPara p) :
    headOkB (joinWith ['\n', '\n'] ps) = true := by
  cases ps with
  | nil => rfl
  | cons p rest =>
    have hp := h p (List.mem_cons_self _ _)
    have hhp := (normalStr_parts hp.2).2.2.1
    cases rest with
    | nil =>
      rw [joinWith]
      exact hhp
    | cons q rest' =>
      rw [joinWith, List.append_assoc, headOkB_append _ hp.1]
      exact hhp

theorem lastOkB_joinWith :
    ∀ (ps : List Str), (∀ p ∈ ps, GoodPara p) →
      lastOkB (joinWith ['\n', '\n'] ps) = true := by
  intro ps
  induction ps with
  | nil => intro _; rfl
  | cons p rest ih =>
    intro h
    have hp := h p (List.mem_cons_self _ _)
    have hlp := (normalStr_parts hp.2).2.2.2
    cases rest with
    | nil =>
      rw [joinWith]
      exact hlp
    | cons q rest' =>
      have hq := h q (List.mem_cons_of_mem p (List.mem_cons_self _ _))
      have hjne : joinWith ['\n', '\n'] (q :: rest') ≠ [] :=
        joinWith_ne_nil rest' hq.1
      rw [joinWith, List.append_assoc,
        lastOkB_append _ (by simp),
        show (['\n', '\n'] : Str) ++ joinWith ['\n', '\n'] (q :: rest') =
          '\n' :: '\n' :: joinWith ['\n', '\n'] (q :: rest') from rfl,
        lastOkB_cons (by simp [hjne]), lastOkB_cons hjne]
      exact ih fun x hx => h x (List.mem_cons_of_mem p hx)

theorem good_join_strip {ps : List Str} (h : ∀ p ∈ ps, GoodPara p) :
    stripL (joinWith ['\n', '\n'] ps) = joinWith ['\n', '\n'] ps :=
  stripL_id (headOkB_joinWith h) (lastOkB_joinWith ps h)

theorem mem_joinWith :
    ∀ (sep : Str) (ls : List Str) (c : Char), c ∈ joinWith sep ls →
      c ∈ sep ∨ ∃ p ∈ ls, c ∈ p := by
  intro sep ls
  induction ls with
  | nil => intro c hc; simp [joinWith] at hc
  | cons p rest ih =>
    intro c hc
    cases rest with
    | nil =>
      rw [joinWith] at hc
      exact Or.inr ⟨p, List.mem_cons_self _ _, hc⟩
    | cons q rest' =>
      rw [joinWith, List.append_assoc, List.mem_append] at hc
      rcases hc with hc | hc
      · exact Or.inr ⟨p, List.mem_cons_self _ _, hc⟩
      · rw [List.mem_append] at hc
        rcases hc with hc | hc
        · exact Or.inl hc
        · rcases ih c hc with hs | ⟨x, hx, hcx⟩
          · exact Or.inl hs
          · exact Or.inr ⟨x, List.mem_cons_of_mem p hx, hcx⟩

theorem clean_text_structure (x : Str) :
    clean_text x = joinWith ['\n', '\n']
      (buildParas [] (dedupBlanks false ((splitNL (fixCR x)).map normalize_line))) := by
  unfold clean_text
  exact good_join_strip (clean_text_paras_good x)

theorem clean_text_of_good :
    ∀ (ps : List Str), (∀ p ∈ ps, GoodPara p) →
      clean_text (joinWith ['\n', '\n'] ps) = joinWith ['\n', '\n'] ps := by
  intro ps h
  cases ps with
  | nil => rfl
  | cons p rest =>
    unfold clean_text
    have hnr : ∀ c ∈ joinWith ['\n', '\n'] (p :: rest), ¬(c = '\r') := by
      intro c hc
      rcases mem_joinWith _ _ c hc with hs | ⟨q, hq, hcq⟩
      · rw [List.mem_cons] at hs
        rcases hs with rfl | hs
        · decide
        · rw [List.mem_singleton] at hs
          subst hs
          decide
      · exact (no_nl_of_good (h q hq) c hcq).1
    rw [fixCR_id _ hnr, splitNL_join (p :: rest) (by simp) h,
      map_id_of _ _ (by
        intro y hy
        rcases mem_interA _ y hy with rfl | hy
        · rfl
        · exact normal_normalize_id (h y hy).2),
      dedupBlanks_interA _ h, buildParas_interA _ h]
    exact good_join_strip h

/-- C6: `clean_text` is idempotent. -/
theorem c6_clean_text_idempotent (x : Str) :
    clean_text (clean_text x) = clean_text x := by
  rw [clean_text_structure x]
  exact clean_text_of_good _ (clean_text_paras_good x)

end IRCodex
